import Mathlib

/-!
Verification development for the Lynx-HWMonitor repository.

The repository launches an external hardware-probe CLI as a subprocess and
converts its textual stdout into structured reports.  The definitions below
are a shallow embedding of the relevant source code:

* the timed-mode stdout framer of `HardwareMonitor.startTimed`
  (src/src/index.ts, lines 258-398): an accumulating character buffer, a
  leading-noise skip flag, a brace/quote/escape scanner and a drain loop
  that carves complete JSON objects out of the stream;
* the argument builder `HardwareMonitor.buildArgs` (lines 88-99) and the
  uptime augmentation guard `addUptimeDataIfNeeded` (lines 116-131);
* the promise state machine of `HardwareMonitor.getDataOnce`
  (lines 139-231), modelled as a fold over subprocess events;
* the synchronous entry guards of `getDataOnce` and `startTimed`
  (lines 141-145, 240-250);
* the rate-limit fallback of `downloadAndExtractLatestCli`
  (src/unnamed/part_003, lines 199-236) together with its numeric-aware
  version sort.

JavaScript strings are modelled as `List Char`.  `JSON.parse` is modelled
by an executable recursive-descent parser over a JSON value type whose
numbers keep their literal digit string (the framing logic never interprets
numeric values).  The parser accepts the escapes `\" \\ \/ \b \f \n \r \t`
and is lenient about raw control characters inside strings; no claim below
depends on that corner.
-/

set_option maxHeartbeats 1000000

namespace LynxHW

/-! ## Character helpers (JS semantics) -/

/-- Whitespace removed by `String.prototype.trim` (ASCII subset). -/
def jsTrimWs (c : Char) : Bool :=
  c = ' ' || c = '\t' || c = '\n' || c = '\r' || c = '\x0b' || c = '\x0c'

/-- Whitespace accepted by `JSON.parse` between tokens. -/
def jsonWs (c : Char) : Bool :=
  c = ' ' || c = '\t' || c = '\n' || c = '\r'

/-- Index of the first occurrence of a character, as `String.prototype.indexOf`. -/
def findCharIdx (c : Char) : List Char → Option Nat
  | [] => none
  | x :: xs => if x = c then some 0 else (findCharIdx c xs).map (· + 1)

/-- `String.prototype.includes` for a single character. -/
def containsChar (b : List Char) (c : Char) : Bool :=
  (findCharIdx c b).isSome

/-- Index of the first occurrence of the two-character terminator CR LF,
as `buffer.indexOf(String.fromCharCode(13, 10))` does in the source. -/
def crlfIndex : List Char → Option Nat
  | '\r' :: '\n' :: _ => some 0
  | _ :: xs => (crlfIndex xs).map (· + 1)
  | [] => none

/-- ASCII lower casing, the fragment of `String.prototype.toLowerCase`
relevant to the strings the downloader compares. -/
def toLowerAscii (c : Char) : Char :=
  if 'A' ≤ c ∧ c ≤ 'Z' then Char.ofNat (c.toNat + 32) else c

def lowerStr (s : List Char) : List Char := s.map toLowerAscii

/-- `String.prototype.includes` for a substring. -/
def containsSub (needle : List Char) : List Char → Bool
  | [] => needle.isEmpty
  | c :: rest => needle.isPrefixOf (c :: rest) || containsSub needle rest

/-! ## JSON values

Numbers keep their literal digit string: the framer never interprets
numeric values, it only moves them around. -/

mutual
inductive Json where
  | null : Json
  | bool (b : Bool) : Json
  | num (s : List Char) : Json
  | str (s : List Char) : Json
  | arr (xs : JsonList) : Json
  | obj (fs : JsonFields) : Json

inductive JsonList where
  | nil : JsonList
  | cons (hd : Json) (tl : JsonList) : JsonList

inductive JsonFields where
  | nil : JsonFields
  | cons (key : List Char) (val : Json) (tl : JsonFields) : JsonFields
end

/-- Characters that may occur in a JSON number literal. -/
def numChar (c : Char) : Bool :=
  c.isDigit || c = '-' || c = '+' || c = '.' || c = 'e' || c = 'E'

/-- Characters that may start a JSON number literal. -/
def numStart (c : Char) : Bool :=
  c.isDigit || c = '-'

def keyMem (k : List Char) : JsonFields → Bool
  | .nil => false
  | .cons k2 _ tl => decide (k = k2) || keyMem k tl

def nodupKeys : JsonFields → Bool
  | .nil => true
  | .cons k _ tl => !keyMem k tl && nodupKeys tl

/- Well-formedness of a JSON value for serialization: number literals are
made of number characters and start like a number, and objects have
distinct keys (so that property lookup is unambiguous, as in a JS object). -/
mutual
def wfJson : Json → Bool
  | .null => true
  | .bool _ => true
  | .num s =>
    match s with
    | [] => false
    | c :: rest => numStart c && (c :: rest).all numChar
  | .str _ => true
  | .arr xs => wfList xs
  | .obj fs => wfFields fs && nodupKeys fs

def wfList : JsonList → Bool
  | .nil => true
  | .cons v tl => wfJson v && wfList tl

def wfFields : JsonFields → Bool
  | .nil => true
  | .cons _ v tl => wfJson v && wfFields tl
end

/- Structural size used as a fuel lower bound for the parser. -/
mutual
def jsize : Json → Nat
  | .null => 0
  | .bool _ => 0
  | .num _ => 0
  | .str _ => 0
  | .arr xs => jlsize xs + 1
  | .obj fs => jfsize fs + 1

def jlsize : JsonList → Nat
  | .nil => 0
  | .cons v tl => jsize v + jlsize tl + 1

def jfsize : JsonFields → Nat
  | .nil => 0
  | .cons _ v tl => jsize v + jfsize tl + 1
end

/-! ## Serializer: the canonical compact text of a JSON value -/

/-- String-body escaping: exactly the quote and the backslash are escaped. -/
def escChar (c : Char) : List Char :=
  if c = '"' then ['\\', '"']
  else if c = '\\' then ['\\', '\\']
  else [c]

def escChars : List Char → List Char
  | [] => []
  | c :: s => escChar c ++ escChars s

/-- Serialized form of a JSON string. -/
def serStr (s : List Char) : List Char :=
  '"' :: (escChars s ++ ['"'])

mutual
def ser : Json → List Char
  | .null => "null".toList
  | .bool true => "true".toList
  | .bool false => "false".toList
  | .num s => s
  | .str s => serStr s
  | .arr xs => '[' :: (serElems xs ++ [']'])
  | .obj fs => '{' :: (serFields fs ++ ['}'])

def serElems : JsonList → List Char
  | .nil => []
  | .cons v tl =>
    ser v ++ (match tl with
              | .nil => []
              | .cons _ _ => ',' :: serElems tl)

def serFields : JsonFields → List Char
  | .nil => []
  | .cons k v tl =>
    serStr k ++ ':' :: (ser v ++ (match tl with
                                  | .nil => []
                                  | .cons _ _ _ => ',' :: serFields tl))
end

/-! ## Parser: executable model of `JSON.parse` -/

def skipWs : List Char → List Char
  | [] => []
  | c :: r => if jsonWs c then skipWs r else c :: r

/-- Unescaping of a backslash escape inside a JSON string.  Unicode escapes
`\uXXXX` are not modelled; none of the inputs used below contain them. -/
def unescChar (c : Char) : Option Char :=
  if c = '"' then some '"'
  else if c = '\\' then some '\\'
  else if c = '/' then some '/'
  else if c = 'n' then some '\n'
  else if c = 't' then some '\t'
  else if c = 'r' then some '\r'
  else if c = 'b' then some '\x08'
  else if c = 'f' then some '\x0c'
  else none

/-- Parse the body of a string literal, after the opening quote. -/
def parseStrBody : List Char → Option (List Char × List Char)
  | [] => none
  | ['\\'] => none
  | '\\' :: e :: r2 =>
    match unescChar e with
    | some u => (parseStrBody r2).map (fun p => (u :: p.1, p.2))
    | none => none
  | c :: r =>
    if c = '"' then some ([], r)
    else (parseStrBody r).map (fun p => (c :: p.1, p.2))

/-- Consume a fixed literal continuation (for `null` / `true` / `false`). -/
def expectLit : List Char → Json → List Char → Option (Json × List Char)
  | [], v, r => some (v, r)
  | l :: ls, v, c :: cs => if c = l then expectLit ls v cs else none
  | _ :: _, _, [] => none

mutual
def parseVal : Nat → List Char → Option (Json × List Char)
  | 0, _ => none
  | fuel + 1, s =>
    match skipWs s with
    | [] => none
    | c :: r =>
      if c = '{' then
        match skipWs r with
        | [] => none
        | c2 :: r2 =>
          if c2 = '}' then some (Json.obj JsonFields.nil, r2)
          else
            match parseMembers fuel r with
            | some (fs, r3) => some (Json.obj fs, r3)
            | none => none
      else if c = '[' then
        match skipWs r with
        | [] => none
        | c2 :: r2 =>
          if c2 = ']' then some (Json.arr JsonList.nil, r2)
          else
            match parseElems fuel r with
            | some (xs, r3) => some (Json.arr xs, r3)
            | none => none
      else if c = '"' then
        match parseStrBody r with
        | some (cs, r2) => some (Json.str cs, r2)
        | none => none
      else if c = 'n' then expectLit ['u', 'l', 'l'] Json.null r
      else if c = 't' then expectLit ['r', 'u', 'e'] (Json.bool true) r
      else if c = 'f' then expectLit ['a', 'l', 's', 'e'] (Json.bool false) r
      else if numStart c then
        some (Json.num ((c :: r).takeWhile numChar), (c :: r).dropWhile numChar)
      else none

def parseMembers : Nat → List Char → Option (JsonFields × List Char)
  | 0, _ => none
  | fuel + 1, s =>
    match skipWs s with
    | [] => none
    | c :: r =>
      if c = '"' then
        match parseStrBody r with
        | none => none
        | some (key, r1) =>
          match skipWs r1 with
          | [] => none
          | c2 :: r2 =>
            if c2 = ':' then
              match parseVal fuel r2 with
              | none => none
              | some (v, r3) =>
                match skipWs r3 with
                | [] => none
                | c3 :: r4 =>
                  if c3 = ',' then
                    match parseMembers fuel r4 with
                    | none => none
                    | some (fs, r5) => some (JsonFields.cons key v fs, r5)
                  else if c3 = '}' then some (JsonFields.cons key v JsonFields.nil, r4)
                  else none
            else none
      else none

def parseElems : Nat → List Char → Option (JsonList × List Char)
  | 0, _ => none
  | fuel + 1, s =>
    match parseVal fuel s with
    | none => none
    | some (v, r1) =>
      match skipWs r1 with
      | [] => none
      | c :: r2 =>
        if c = ',' then
          match parseElems fuel r2 with
          | none => none
          | some (xs, r3) => some (JsonList.cons v xs, r3)
        else if c = ']' then some (JsonList.cons v JsonList.nil, r2)
        else none
end

/-- Model of `JSON.parse`: the whole input must be one value followed by
nothing but whitespace. -/
def jsonParse (s : List Char) : Option Json :=
  match parseVal (s.length + 1) s with
  | some (v, rest) => if skipWs rest = [] then some v else none
  | none => none

/-! ## The brace/quote/escape scanner

Embedding of the `for` loop at src/src/index.ts lines 300-332, which scans
the buffer for the end of the first complete JSON object while honoring
quoted strings and backslash escaping. -/

inductive ScanRes where
  | found (i : Nat)
  | unbalanced
  | incomplete (bal : Int) (inStr : Bool) (esc : Bool)
deriving DecidableEq

/-- One iteration of the scan loop body on the character at index `i`:
either a terminal result (`found` when the balance returns to zero on a
closing brace past position zero, `unbalanced` when it goes negative), or
the next `(balance, inString, escapeNext)` state. -/
def scanStep (bal : Int) (inStr esc : Bool) (c : Char) (i : Nat) :
    ScanRes ⊕ (Int × Bool × Bool) :=
  if esc then .inr (bal, inStr, false)
  else if c = '\\' then .inr (bal, inStr, true)
  else
    let inStr2 := if c = '"' then !inStr else inStr
    if inStr2 then .inr (bal, inStr2, false)
    else if c = '{' then .inr (bal + 1, inStr2, false)
    else if c = '}' then
      if bal - 1 = 0 ∧ 0 < i then .inl (.found i)
      else if bal - 1 < 0 then .inl .unbalanced
      else .inr (bal - 1, inStr2, false)
    else .inr (bal, inStr2, false)

def scanAux : List Char → Int → Bool → Bool → Nat → ScanRes
  | [], bal, inStr, esc, _ => .incomplete bal inStr esc
  | c :: rest, bal, inStr, esc, i =>
    match scanStep bal inStr esc c i with
    | .inl r => r
    | .inr s2 => scanAux rest s2.1 s2.2.1 s2.2.2 (i + 1)


/-- The four characters the scanner treats specially outside strings. -/
def special (c : Char) : Bool :=
  c = '"' || c = '\\' || c = '{' || c = '}'

/-- The separator text `serElems` places after one array element: nothing
at the end, a comma before a further element. -/
def serElemsSep : JsonList → List Char
  | .nil => []
  | .cons v tl => ',' :: serElems (JsonList.cons v tl)

/-- The separator text `serFields` places after one member. -/
def serFieldsSep : JsonFields → List Char
  | .nil => []
  | .cons k v tl => ',' :: serFields (JsonFields.cons k v tl)

/-- The condition the text following a serialized value must satisfy for
the parse to stop exactly at the value boundary: only number literals are
greedy, so only they constrain the next character. -/
def restOk : Json → List Char → Prop
  | .num _, c :: _ => numChar c = false
  | _, _ => True

/-! ## Events and reports -/

/-- The `type` tags of `MonitorError` (src/src/index.ts lines 39-43). -/
inductive MErrType where
  | spawnError
  | processError
  | jsonParseError
  | timeoutError
deriving DecidableEq

/-- An event emitted by the timed session: a framed report payload together
with the flag recording whether `addUptimeDataIfNeeded` attached the
`Uptime`/`ElapsedTime` fields, or an `error` event with a `MonitorError`. -/
inductive Event where
  | data (payload : Json) (withUptime : Bool)
  | error (t : MErrType)

def isErrorEvent : Event → Bool
  | .error _ => true
  | .data _ _ => false

def hasErrorEvent (evs : List Event) : Bool := evs.any isErrorEvent

/-! ## Component selectors, argument building, uptime augmentation -/

def uptimeTag : List Char := "uptime".toList
def tsKey : List Char := "Timestamp".toList
def cpuKey : List Char := "CPU".toList
def gpuKey : List Char := "GPU".toList
def memoryKey : List Char := "Memory".toList
def motherboardKey : List Char := "Motherboard".toList
def storageKey : List Char := "Storage".toList
def networkKey : List Char := "Network".toList

def joinComma : List (List Char) → List Char
  | [] => []
  | [x] => x
  | x :: xs => x ++ ',' :: joinComma xs

/-- Embedding of `HardwareMonitor.buildArgs` (src/src/index.ts lines 88-99). -/
def buildArgs (mode : List Char) (intervalMs : Option Nat)
    (components : Option (List (List Char))) : List (List Char) :=
  let args := ["--mode".toList, mode]
  let cliComponents := components.map (fun l => l.filter (fun comp => !decide (comp = uptimeTag)))
  let args2 :=
    match intervalMs with
    | some n =>
      if mode = "timed".toList then args ++ ["--interval".toList, (Nat.repr n).toList]
      else args
    | none => args
  match cliComponents with
  | some l => if !l.isEmpty then args2 ++ ["--components".toList, joinComma l] else args2
  | none => args2

/-- The guard of `addUptimeDataIfNeeded` (src/src/index.ts line 118):
uptime data is attached when no components were requested, the requested
list is empty, or it includes the synthetic uptime tag. -/
def needsUptime (components : Option (List (List Char))) : Bool :=
  match components with
  | none => true
  | some l => decide (l = []) || decide (uptimeTag ∈ l)

/-! ## Building the final report from a parsed payload -/

def lookupF : JsonFields → List Char → Option Json
  | .nil, _ => none
  | .cons k v tl, key => if k = key then some v else lookupF tl key

def fieldsOf : Json → JsonFields
  | .obj fs => fs
  | _ => .nil

/-- `typeof parsedData.Timestamp === 'string'` (src/src/index.ts line 354). -/
def tsOk (j : Json) : Bool :=
  match j with
  | .obj fs =>
    match lookupF fs tsKey with
    | some (.str _) => true
    | _ => false
  | _ => false

/-- JS falsiness of the values our model can hold; `parsedData.CPU || []`
replaces a falsy field by an empty array. -/
def jsFalsy : Json → Bool
  | .null => true
  | .bool b => !b
  | .num s =>
    let mantissa := (s.takeWhile (fun c => !(c = 'e' || c = 'E'))).filter Char.isDigit
    !mantissa.isEmpty && mantissa.all (· = '0')
  | .str s => s.isEmpty
  | .arr _ => false
  | .obj _ => false

/-- `parsedData.K || []` for a category key `K`. -/
def fieldOr (fs : JsonFields) (k : List Char) : Json :=
  match lookupF fs k with
  | some v => if jsFalsy v then Json.arr .nil else v
  | none => Json.arr .nil

/-- `parsedData.Timestamp` as a value (undefined modelled as `null`;
unreachable under the `tsOk` guard). -/
def tsField (fs : JsonFields) : Json :=
  match lookupF fs tsKey with
  | some v => v
  | none => Json.null

/-- The base-report restriction of the timed path
(src/src/index.ts lines 358-367). -/
def restrictTimed (j : Json) : Json :=
  let fs := fieldsOf j
  Json.obj (.cons tsKey (tsField fs)
    (.cons cpuKey (fieldOr fs cpuKey)
      (.cons gpuKey (fieldOr fs gpuKey)
        (.cons memoryKey (fieldOr fs memoryKey)
          (.cons motherboardKey (fieldOr fs motherboardKey)
            (.cons storageKey (fieldOr fs storageKey)
              (.cons networkKey (fieldOr fs networkKey) .nil)))))))

/-- `finalReport` of the timed path (src/src/index.ts lines 356-370): when
no CLI components remain after stripping the uptime tag, restrict to the
base categories; otherwise pass the parsed object through verbatim. -/
def mkFinalTimed (components : Option (List (List Char))) (parsed : Json) : Json :=
  match components.map (fun l => l.filter (fun comp => !decide (comp = uptimeTag))) with
  | none => restrictTimed parsed
  | some [] => restrictTimed parsed
  | some (_ :: _) => parsed

/-! ## The timed-mode framer -/

/-- The per-session framer state: the accumulating stdout buffer and the
`initialMessageSkipped` flag (src/src/index.ts lines 50-51). -/
structure FramerState where
  buffer : List Char
  initialMessageSkipped : Bool

/-- The leading-noise skip step (src/src/index.ts lines 261-276): `none`
means keep waiting for more data; `some b` is the buffer to drain after
marking noise skipped. -/
def skipInitial (b : List Char) : Option (List Char) :=
  match crlfIndex b with
  | some n =>
    some (if (b.take n).head? = some '{' then b else b.drop (n + 2))
  | none =>
    if 1024 < b.length && !containsChar b '{' then some b else none

/-- The count of trailing line-terminator characters consumed after a
framed object (src/src/index.ts lines 338-348): CR LF, lone LF, or none. -/
def consumedAdjust : List Char → Nat
  | '\r' :: '\n' :: _ => 2
  | '\n' :: _ => 1
  | _ => 0

/-- The preamble recovery at the top of each drain iteration
(src/src/index.ts lines 282-292): when the buffer does not already start
with the opening brace, discard everything before the next one; with no
opening brace at all, clear the buffer when it is pure whitespace. -/
def preambleAdjust (buffer : List Char) : List Char :=
  if buffer.head? = some '{' then buffer
  else
    match findCharIdx '{' buffer with
    | some j => buffer.drop j
    | none => if buffer.all jsTrimWs then [] else buffer

/-- The buffer drain loop (src/src/index.ts lines 281-397), with explicit
fuel (each iteration consumes at least one character, so any fuel of at
least the buffer length reaches a fixed point).  Returns the final buffer,
the final `initialMessageSkipped` flag, and the emitted events in order. -/
def drainLoop (components : Option (List (List Char))) :
    Nat → List Char → List Char × Bool × List Event
  | 0, buffer => (buffer, true, [])
  | fuel + 1, buffer =>
    if buffer.isEmpty then (buffer, true, [])
    else
      let b1 := preambleAdjust buffer
      if b1.head? ≠ some '{' then (b1, true, [])
      else
        match scanAux b1 0 false false 0 with
        | .incomplete _ _ _ => (b1, true, [])
        | .unbalanced => ([], false, [Event.error MErrType.jsonParseError])
        | .found i =>
          let reportString := b1.take (i + 1)
          let consumed := i + 1 + consumedAdjust (b1.drop (i + 1))
          match jsonParse reportString with
          | some parsed =>
            if tsOk parsed then
              let rec1 := drainLoop components fuel (b1.drop consumed)
              (rec1.1, rec1.2.1,
                Event.data (mkFinalTimed components parsed) (needsUptime components) :: rec1.2.2)
            else
              let rec1 := drainLoop components fuel (b1.drop consumed)
              (rec1.1, rec1.2.1, Event.error MErrType.jsonParseError :: rec1.2.2)
          | none => (b1.drop consumed, true, [Event.error MErrType.jsonParseError])

/-- The stdout data handler installed by `startTimed`
(src/src/index.ts lines 258-398), as a function from the framer state and
an incoming chunk to the next state and the events emitted. -/
def stdoutDataHandler (components : Option (List (List Char)))
    (st : FramerState) (chunk : List Char) : FramerState × List Event :=
  let b := st.buffer ++ chunk
  match (if st.initialMessageSkipped then some b else skipInitial b) with
  | none => (⟨b, false⟩, [])
  | some b1 =>
    let r := drainLoop components (b1.length + 1) b1
    (⟨r.1, r.2.1⟩, r.2.2)

/-- Feeding a sequence of chunks, concatenating the emitted events. -/
def processChunks (components : Option (List (List Char)))
    (st : FramerState) : List (List Char) → FramerState × List Event
  | [] => (st, [])
  | c :: cs =>
    let r1 := stdoutDataHandler components st c
    let r2 := processChunks components r1.1 cs
    (r2.1, r1.2 ++ r2.2)

/-! ## The one-shot session: `getDataOnce` as an event machine

`getDataOnce` (src/src/index.ts lines 139-231) wires a timeout timer and
the subprocess handlers onto one promise.  We model the asynchronous part
as a fold over the events that can fire: the timer, stdout/stderr data,
the `error` event and the `close` event.  `nowIso` stands for the
`new Date().toISOString()` fallback used for a missing timestamp. -/

inductive OnceEvent where
  | timeoutFire
  | stdoutData (s : List Char)
  | stderrData (s : List Char)
  | procError
  | closeEvt (code : Int)

/-- A settlement of the `getDataOnce` promise. -/
inductive Settle where
  | resolved (payload : Json) (withUptime : Bool)
  | rejected (t : MErrType)

structure OnceState where
  output : List Char
  errorOutput : List Char
  processKilled : Bool
  timerActive : Bool
  kills : Nat
  settles : List Settle

def onceInit : OnceState := ⟨[], [], false, true, 0, []⟩

/-- The base-report restriction of the one-shot path
(src/src/index.ts lines 206-214); a falsy `Timestamp` is replaced by the
current ISO date string. -/
def restrictOnce (nowIso : List Char) (j : Json) : Json :=
  let fs := fieldsOf j
  let ts := match lookupF fs tsKey with
            | some v => if jsFalsy v then Json.str nowIso else v
            | none => Json.str nowIso
  Json.obj (.cons tsKey ts
    (.cons cpuKey (fieldOr fs cpuKey)
      (.cons gpuKey (fieldOr fs gpuKey)
        (.cons memoryKey (fieldOr fs memoryKey)
          (.cons motherboardKey (fieldOr fs motherboardKey)
            (.cons storageKey (fieldOr fs storageKey)
              (.cons networkKey (fieldOr fs networkKey) .nil)))))))

/-- `finalReport` of the one-shot path (src/src/index.ts lines 198-218). -/
def mkFinalOnce (components : Option (List (List Char))) (nowIso : List Char)
    (parsed : Json) : Json :=
  match components.map (fun l => l.filter (fun comp => !decide (comp = uptimeTag))) with
  | none => restrictOnce nowIso parsed
  | some [] => restrictOnce nowIso parsed
  | some (_ :: _) => parsed

/-- One event step of the `getDataOnce` handlers
(src/src/index.ts lines 154-229). -/
def onceStep (components : Option (List (List Char))) (nowIso : List Char)
    (st : OnceState) : OnceEvent → OnceState
  | .timeoutFire =>
    if st.timerActive then
      { st with
        processKilled := true
        timerActive := false
        kills := st.kills + 1
        settles := st.settles ++ [Settle.rejected MErrType.timeoutError] }
    else st
  | .stdoutData s => { st with output := st.output ++ s }
  | .stderrData s => { st with errorOutput := st.errorOutput ++ s }
  | .procError =>
    if st.processKilled then st
    else
      { st with
        timerActive := false
        settles := st.settles ++ [Settle.rejected MErrType.spawnError] }
  | .closeEvt code =>
    if st.processKilled then st
    else
      { st with
        timerActive := false
        settles := st.settles ++
          (if code ≠ 0 then [Settle.rejected MErrType.processError]
           else
             match jsonParse st.output with
             | some parsed =>
               [Settle.resolved (mkFinalOnce components nowIso parsed) (needsUptime components)]
             | none => [Settle.rejected MErrType.jsonParseError]) }

/-- The whole asynchronous life of one `getDataOnce` call, given the order
in which its events fired. -/
def runOnce (components : Option (List (List Char))) (nowIso : List Char)
    (events : List OnceEvent) : OnceState :=
  events.foldl (onceStep components nowIso) onceInit

/-! ## Synchronous entry guards of `getDataOnce` and `startTimed` -/

/-- Outcome of the synchronous part of `getDataOnce`
(src/src/index.ts lines 140-152). -/
inductive OnceSyncOutcome where
  | rejectImmediate (t : MErrType)
  | spawned (args : List (List Char))

/-- The synchronous prelude of `getDataOnce`: reject with a `spawn_error`
before spawning when no executable path has been set. -/
def getDataOnceSync (executablePath : List Char)
    (components : Option (List (List Char))) : OnceSyncOutcome :=
  if executablePath = [] then .rejectImmediate MErrType.spawnError
  else .spawned (buildArgs "once".toList none components)

/-- Outcome of the synchronous part of `startTimed`
(src/src/index.ts lines 240-256).  The already-active guard emits a plain
`Error` without a `MonitorError` type tag; the missing-executable guard
emits a `MonitorError` tagged `spawn_error`. -/
inductive TimedSyncOutcome where
  | emitPlainError
  | emitMonitorError (t : MErrType)
  | spawned (args : List (List Char))

def startTimedSync (activeProcess : Bool) (executablePath : List Char)
    (intervalMs : Nat) (components : Option (List (List Char))) : TimedSyncOutcome :=
  if activeProcess then .emitPlainError
  else if executablePath = [] then .emitMonitorError MErrType.spawnError
  else .spawned (buildArgs "timed".toList (some intervalMs) components)

/-! ## The downloader's rate-limit fallback

Embedding of the fetch-failure branch of `downloadAndExtractLatestCli`
(src/unnamed/part_003, lines 199-236): on an error message containing
"403" (lower-cased), fall back to the locally cached version directory
that sorts highest under `localeCompare` with numeric collation. -/

def digitsToNat (s : List Char) : Nat :=
  s.foldl (fun a c => a * 10 + (c.toNat - '0'.toNat)) 0

/-- Numeric-aware, case-folding string comparison: the model of
`a.localeCompare(b)` with numeric collation and base sensitivity
on version-directory names.  Digit runs compare by numeric value. -/
def natVerCmp : Nat → List Char → List Char → Ordering
  | 0, _, _ => .eq
  | _ + 1, [], [] => .eq
  | _ + 1, [], _ :: _ => .lt
  | _ + 1, _ :: _, [] => .gt
  | fuel + 1, a :: as, b :: bs =>
    if a.isDigit && b.isDigit then
      let da := (a :: as).takeWhile Char.isDigit
      let db := (b :: bs).takeWhile Char.isDigit
      match compare (digitsToNat da) (digitsToNat db) with
      | .eq => natVerCmp fuel ((a :: as).dropWhile Char.isDigit) ((b :: bs).dropWhile Char.isDigit)
      | o => o
    else if a.isDigit then .lt
    else if b.isDigit then .gt
    else
      match compare (toLowerAscii a).toNat (toLowerAscii b).toNat with
      | .eq => natVerCmp fuel as bs
      | o => o

def verCmp (a b : List Char) : Ordering :=
  natVerCmp (a.length + b.length + 1) a b

/-- Insert into a list kept sorted in descending `verCmp` order. -/
def insertDesc (x : List Char) : List (List Char) → List (List Char)
  | [] => [x]
  | y :: ys => if verCmp x y = .gt then x :: y :: ys else y :: insertDesc x ys

/-- `dirs.sort((a, b) => b.localeCompare(a, ...))`: descending natural sort. -/
def sortVersionsDesc : List (List Char) → List (List Char)
  | [] => []
  | x :: xs => insertDesc x (sortVersionsDesc xs)

def pathJoin (a b : List Char) : List Char := a ++ '/' :: b

/-- Result of `downloadAndExtractLatestCli` when the manifest fetch failed. -/
inductive FetchFailureOutcome where
  | fallback (p : List Char)
  | failedNoLocalVersions
  | failedFetch
deriving DecidableEq

/-- The catch-branch of the manifest fetch
(src/unnamed/part_003 lines 199-236).  `readdirDirs` is the list of
subdirectory names of the base destination directory, or `none` when
`readdir` itself failed (for example the directory does not exist). -/
def fetchFailureFallback (errMsg : List Char)
    (readdirDirs : Option (List (List Char))) (baseDir : List Char) : FetchFailureOutcome :=
  if containsSub "403".toList (lowerStr errMsg) then
    match readdirDirs with
    | none => .failedNoLocalVersions
    | some dirs =>
      match (sortVersionsDesc dirs).head? with
      | some top => .fallback (pathJoin baseDir top)
      | none => .failedNoLocalVersions
  else .failedFetch


/-! ## Concrete inputs used by witnesses and counterexamples -/

/-- Fields of the small report object used as a witness input:
one field, a string timestamp. -/
def wFs : JsonFields := JsonFields.cons tsKey (Json.str ['t']) JsonFields.nil

/-- A second small report object. -/
def wFs2 : JsonFields := JsonFields.cons tsKey (Json.str ['b']) JsonFields.nil

/-- A report object whose string value contains literal braces and an
escaped quote: used to witness brace tracking inside strings. -/
def wFsBrace : JsonFields :=
  JsonFields.cons tsKey (Json.str ['a', '{', 'b', '}', '"']) JsonFields.nil

/-- The timed-mode stream of the C3 counterexample: two valid report
objects separated by one unmatched closing brace. -/
def strayStream : List Char := ser (Json.obj wFs) ++ '}' :: ser (Json.obj wFs2)

/-- The stream of the C4 counterexample: a candidate object whose body is
not valid JSON, immediately followed by a complete valid report object. -/
def parseFailStream : List Char :=
  '{' :: '"' :: 'a' :: '"' :: ' ' :: 'b' :: '}' :: ser (Json.obj wFs)


/- Whether some quoted string value inside the JSON value contains a
literal brace character. -/
mutual
def containsBraceInString : Json → Bool
  | .str s => s.any (fun c => c = '{' || c = '}')
  | .arr xs => listContainsBraceInString xs
  | .obj fs => fieldsContainBraceInString fs
  | _ => false

def listContainsBraceInString : JsonList → Bool
  | .nil => false
  | .cons v tl => containsBraceInString v || listContainsBraceInString tl

def fieldsContainBraceInString : JsonFields → Bool
  | .nil => false
  | .cons _ v tl => containsBraceInString v || fieldsContainBraceInString tl
end

/-! ## Scanner lemmas -/

theorem scanStep_esc (bal : Int) (inStr : Bool) (c : Char) (i : Nat) :
    scanStep bal inStr true c i = .inr (bal, inStr, false) := by
  simp [scanStep]

theorem scanStep_nonspecial (bal : Int) (inStr : Bool) (c : Char) (i : Nat)
    (h : special c = false) :
    scanStep bal inStr false c i = .inr (bal, inStr, false) := by
  simp only [special, Bool.or_eq_false_iff, decide_eq_false_iff_not] at h
  obtain ⟨⟨⟨h1, h2⟩, h3⟩, h4⟩ := h
  cases inStr <;> simp [scanStep, h1, h2, h3, h4]

theorem scanStep_backslash (bal : Int) (inStr : Bool) (i : Nat) :
    scanStep bal inStr false '\\' i = .inr (bal, inStr, true) := by
  simp [scanStep]

theorem scanStep_quote (bal : Int) (inStr : Bool) (i : Nat) :
    scanStep bal inStr false '"' i = .inr (bal, !inStr, false) := by
  cases inStr <;> simp [scanStep]

theorem scanStep_quote_open (bal : Int) (i : Nat) :
    scanStep bal false false '"' i = .inr (bal, true, false) := by
  simp [scanStep]

theorem scanStep_quote_close (bal : Int) (i : Nat) :
    scanStep bal true false '"' i = .inr (bal, false, false) := by
  simp [scanStep]

theorem scanStep_inStr (bal : Int) (c : Char) (i : Nat)
    (h1 : c ≠ '"') (h2 : c ≠ '\\') :
    scanStep bal true false c i = .inr (bal, true, false) := by
  simp [scanStep, h1, h2]

theorem scanStep_open (bal : Int) (i : Nat) :
    scanStep bal false false '{' i = .inr (bal + 1, false, false) := by
  simp [scanStep]

theorem scanStep_close_pass (bal : Int) (i : Nat) (h : 1 ≤ bal) :
    scanStep (bal + 1) false false '}' i = .inr (bal, false, false) := by
  simp [scanStep]
  split_ifs with h1 h2
  · exact absurd h1.1 (by omega)
  · exact absurd h2 (by omega)
  · rfl

theorem scanStep_inl_cases (bal : Int) (inStr esc : Bool) (c : Char) (i : Nat)
    (r : ScanRes) (h : scanStep bal inStr esc c i = .inl r) :
    r = ScanRes.found i ∨ r = ScanRes.unbalanced := by
  cases inStr <;>
    (unfold scanStep at h;
     split_ifs at h <;>
       simp only [Sum.inl.injEq, reduceCtorEq] at h)
  all_goals simp_all

theorem scanStep_not_inl_unbalanced (bal : Int) (inStr esc : Bool) (c : Char) (i : Nat)
    (hbal : 1 ≤ bal) : scanStep bal inStr esc c i ≠ .inl .unbalanced := by
  intro h
  cases inStr <;>
    (unfold scanStep at h;
     split_ifs at h <;>
       simp only [Sum.inl.injEq, reduceCtorEq] at h)
  all_goals try omega
  all_goals simp_all

theorem scanStep_inr_pos (bal : Int) (inStr esc : Bool) (c : Char) (i : Nat)
    (b2 : Int) (s2 e2 : Bool) (hbal : 1 ≤ bal) (hi : 1 ≤ i)
    (h : scanStep bal inStr esc c i = .inr (b2, s2, e2)) : 1 ≤ b2 := by
  cases inStr <;>
    (unfold scanStep at h;
     split_ifs at h <;>
       simp only [Sum.inr.injEq, Prod.mk.injEq, reduceCtorEq] at h)
  all_goals try (obtain ⟨rfl, -, -⟩ := h)
  all_goals try omega
  all_goals simp_all

theorem scanStep_close_found (i : Nat) (h : 0 < i) :
    scanStep 1 false false '}' i = .inl (.found i) := by
  simp [scanStep, h]

theorem scanAux_cons (c : Char) (rest : List Char) (bal : Int) (inStr esc : Bool) (i : Nat) :
    scanAux (c :: rest) bal inStr esc i =
      match scanStep bal inStr esc c i with
      | .inl r => r
      | .inr s2 => scanAux rest s2.1 s2.2.1 s2.2.2 (i + 1) := rfl

theorem scanAux_append_found (xs : List Char) :
    ∀ ys bal inStr esc i j, scanAux xs bal inStr esc i = .found j →
      scanAux (xs ++ ys) bal inStr esc i = .found j := by
  induction xs with
  | nil => intro ys bal inStr esc i j h; simp [scanAux] at h
  | cons c rest ih =>
    intro ys bal inStr esc i j h
    rw [List.cons_append, scanAux_cons]
    rw [scanAux_cons] at h
    cases hs : scanStep bal inStr esc c i with
    | inl r => simp [hs] at h ⊢; exact h
    | inr s2 => simp [hs] at h ⊢; exact ih _ _ _ _ _ _ h

theorem scanAux_append_unbalanced (xs : List Char) :
    ∀ ys bal inStr esc i, scanAux xs bal inStr esc i = .unbalanced →
      scanAux (xs ++ ys) bal inStr esc i = .unbalanced := by
  induction xs with
  | nil => intro ys bal inStr esc i h; simp [scanAux] at h
  | cons c rest ih =>
    intro ys bal inStr esc i h
    rw [List.cons_append, scanAux_cons]
    rw [scanAux_cons] at h
    cases hs : scanStep bal inStr esc c i with
    | inl r => simp [hs] at h ⊢; exact h
    | inr s2 => simp [hs] at h ⊢; exact ih _ _ _ _ _ h

theorem scanAux_append_incomplete (xs : List Char) :
    ∀ ys bal inStr esc i b2 s2 e2,
      scanAux xs bal inStr esc i = .incomplete b2 s2 e2 →
      scanAux (xs ++ ys) bal inStr esc i = scanAux ys b2 s2 e2 (i + xs.length) := by
  induction xs with
  | nil =>
    intro ys bal inStr esc i b2 s2 e2 h
    simp [scanAux] at h
    obtain ⟨rfl, rfl, rfl⟩ := h
    simp
  | cons c rest ih =>
    intro ys bal inStr esc i b2 s2 e2 h
    rw [List.cons_append, scanAux_cons]
    rw [scanAux_cons] at h
    cases hs : scanStep bal inStr esc c i with
    | inl r =>
      simp [hs] at h ⊢
      rcases scanStep_inl_cases _ _ _ _ _ _ hs with rfl | rfl <;> simp_all
    | inr s3 =>
      simp only [hs] at h ⊢
      have := ih ys s3.1 s3.2.1 s3.2.2 (i + 1) b2 s2 e2 h
      rw [this]
      congr 1
      simp
      omega

theorem scanStep_inl_found (bal : Int) (inStr esc : Bool) (c : Char) (i j : Nat)
    (h : scanStep bal inStr esc c i = .inl (.found j)) : j = i := by
  cases inStr <;>
    (unfold scanStep at h;
     split_ifs at h <;>
       simp only [Sum.inl.injEq, reduceCtorEq, ScanRes.found.injEq] at h)
  all_goals simp_all

theorem scanAux_found_bounds (xs : List Char) :
    ∀ bal inStr esc i j, scanAux xs bal inStr esc i = .found j →
      i ≤ j ∧ j < i + xs.length := by
  induction xs with
  | nil => intro bal inStr esc i j h; simp [scanAux] at h
  | cons c rest ih =>
    intro bal inStr esc i j h
    rw [scanAux_cons] at h
    cases hs : scanStep bal inStr esc c i with
    | inl r =>
      simp [hs] at h
      subst h
      have := scanStep_inl_found bal inStr esc c i j hs
      subst this
      simp
    | inr s2 =>
      simp [hs] at h
      have := ih s2.1 s2.2.1 s2.2.2 (i + 1) j h
      constructor
      · omega
      · simp; omega

/-- With a positive balance and a positive index the scan can never report
unbalanced braces: the balance would have to pass through zero first, and
reaching zero past index zero stops the scan with `found`. -/
theorem scanAux_not_unbalanced (xs : List Char) :
    ∀ bal inStr esc i, 1 ≤ bal → 1 ≤ i →
      scanAux xs bal inStr esc i ≠ .unbalanced := by
  induction xs with
  | nil => intro bal inStr esc i _ _ h; simp [scanAux] at h
  | cons c rest ih =>
    intro bal inStr esc i hbal hi h
    rw [scanAux_cons] at h
    cases hs : scanStep bal inStr esc c i with
    | inl r =>
      simp [hs] at h
      subst h
      exact scanStep_not_inl_unbalanced bal inStr esc c i hbal hs
    | inr s2 =>
      obtain ⟨b2, s2', e2⟩ := s2
      simp [hs] at h
      have hb2 : 1 ≤ b2 := scanStep_inr_pos bal inStr esc c i b2 s2' e2 hbal hi hs
      exact ih b2 s2' e2 (i + 1) hb2 (by omega) h

/-! ## Scanning a serialized value is balance-neutral -/

theorem numChar_not_special (c : Char) (h : numChar c = true) : special c = false := by
  by_contra hs
  rw [Bool.not_eq_false] at hs
  simp only [special, Bool.or_eq_true, decide_eq_true_eq] at hs
  rcases hs with ((rfl | rfl) | rfl) | rfl <;> simp [numChar] at h

theorem scanAux_cons_inr (c : Char) (rest : List Char) (bal : Int) (inStr esc : Bool)
    (i : Nat) (b2 : Int) (s2 e2 : Bool)
    (h : scanStep bal inStr esc c i = .inr (b2, s2, e2)) :
    scanAux (c :: rest) bal inStr esc i = scanAux rest b2 s2 e2 (i + 1) := by
  rw [scanAux_cons, h]

theorem all_numChar_nonspecial (s : List Char) (h : s.all numChar = true) :
    s.all (fun c => !special c) = true := by
  rw [List.all_eq_true] at h ⊢
  intro c hc
  rw [Bool.not_eq_true']
  exact numChar_not_special c (h c hc)

/-- Characters the scanner treats as plain pass through it without touching
the balance or the string state. -/
theorem scan_nonspecial (s : List Char) :
    ∀ rest bal inStr i, s.all (fun c => !special c) = true →
      scanAux (s ++ rest) bal inStr false i =
        scanAux rest bal inStr false (i + s.length) := by
  induction s with
  | nil => intro rest bal inStr i _; simp
  | cons c cs ih =>
    intro rest bal inStr i hall
    rw [List.all_cons, Bool.and_eq_true] at hall
    obtain ⟨hc, hcs⟩ := hall
    rw [Bool.not_eq_true'] at hc
    rw [List.cons_append,
      scanAux_cons_inr _ _ _ _ _ _ _ _ _ (scanStep_nonspecial bal inStr c i hc),
      ih rest bal inStr (i + 1) hcs]
    congr 1
    simp
    omega

/-- The escaped body of a string passes through the scanner inside the
string state without touching the balance. -/
theorem scan_escChars (s : List Char) :
    ∀ rest bal i,
      scanAux (escChars s ++ rest) bal true false i =
        scanAux rest bal true false (i + (escChars s).length) := by
  induction s with
  | nil => intro rest bal i; simp [escChars]
  | cons c cs ih =>
    intro rest bal i
    by_cases hq : c = '"'
    · subst hq
      have he : escChars ('"' :: cs) = '\\' :: '"' :: escChars cs := by
        simp [escChars, escChar]
      rw [he, List.cons_append, List.cons_append,
        scanAux_cons_inr _ _ _ _ _ _ _ _ _ (scanStep_backslash bal true i),
        scanAux_cons_inr _ _ _ _ _ _ _ _ _ (scanStep_esc bal true '"' (i + 1)),
        ih rest bal (i + 1 + 1)]
      congr 1
      simp
      omega
    · by_cases hb : c = '\\'
      · subst hb
        have he : escChars ('\\' :: cs) = '\\' :: '\\' :: escChars cs := by
          simp [escChars, escChar]
        rw [he, List.cons_append, List.cons_append,
          scanAux_cons_inr _ _ _ _ _ _ _ _ _ (scanStep_backslash bal true i),
          scanAux_cons_inr _ _ _ _ _ _ _ _ _ (scanStep_esc bal true '\\' (i + 1)),
          ih rest bal (i + 1 + 1)]
        congr 1
        simp
        omega
      · have he : escChars (c :: cs) = c :: escChars cs := by
          simp [escChars, escChar, if_neg hq, if_neg hb]
        rw [he, List.cons_append,
          scanAux_cons_inr _ _ _ _ _ _ _ _ _ (scanStep_inStr bal c i hq hb),
          ih rest bal (i + 1)]
        congr 1
        simp
        omega

/-- A full serialized string literal passes through the scanner outside
the string state without touching the balance. -/
theorem scan_serStr (s : List Char) (rest : List Char) (bal : Int) (i : Nat) :
    scanAux (serStr s ++ rest) bal false false i =
      scanAux rest bal false false (i + (serStr s).length) := by
  have hu : serStr s = '"' :: (escChars s ++ ['"']) := rfl
  rw [hu, List.cons_append,
    scanAux_cons_inr _ _ _ _ _ _ _ _ _ (scanStep_quote_open bal i),
    List.append_assoc, List.singleton_append,
    scan_escChars s ('"' :: rest) bal (i + 1),
    scanAux_cons_inr _ _ _ _ _ _ _ _ _ (scanStep_quote_close bal (i + 1 + (escChars s).length))]
  congr 1
  simp
  omega


mutual

/-- Scanning a serialized value from a positive balance consumes it whole,
returning to the same scanner state: the balance never returns to zero
inside a well-formed value. -/
theorem scan_ser (v : Json) (rest : List Char) (bal : Int) (i : Nat)
    (hwf : wfJson v = true) (hbal : 1 ≤ bal) :
    scanAux (ser v ++ rest) bal false false i =
      scanAux rest bal false false (i + (ser v).length) := by
  cases v with
  | null =>
    simp only [ser]
    exact scan_nonspecial _ rest bal false i (by decide)
  | bool b =>
    cases b <;> simp only [ser] <;>
      exact scan_nonspecial _ rest bal false i (by decide)
  | num s =>
    cases s with
    | nil => simp [wfJson] at hwf
    | cons c cs =>
      simp only [wfJson, Bool.and_eq_true] at hwf
      simp only [ser]
      exact scan_nonspecial _ rest bal false i (all_numChar_nonspecial _ hwf.2)
  | str s =>
    simp only [ser]
    exact scan_serStr s rest bal i
  | arr xs =>
    simp only [wfJson] at hwf
    simp only [ser, List.cons_append,
      scanAux_cons_inr _ _ _ _ _ _ _ _ _ (scanStep_nonspecial bal false '[' i (by decide)),
      List.append_assoc, List.singleton_append, List.nil_append]
    rw [scan_serElems xs (']' :: rest) bal (i + 1) hwf hbal,
      scanAux_cons_inr _ _ _ _ _ _ _ _ _
        (scanStep_nonspecial bal false ']' (i + 1 + (serElems xs).length) (by decide))]
    congr 1
    simp [ser]
    omega
  | obj fs =>
    simp only [wfJson, Bool.and_eq_true] at hwf
    simp only [ser, List.cons_append,
      scanAux_cons_inr _ _ _ _ _ _ _ _ _ (scanStep_open bal i),
      List.append_assoc, List.singleton_append, List.nil_append]
    rw [scan_serFields fs ('}' :: rest) (bal + 1) (i + 1) hwf.1 (by omega),
      scanAux_cons_inr _ _ _ _ _ _ _ _ _
        (scanStep_close_pass bal (i + 1 + (serFields fs).length) hbal)]
    congr 1
    simp [ser]
    omega

theorem scan_serElems (xs : JsonList) (rest : List Char) (bal : Int) (i : Nat)
    (hwf : wfList xs = true) (hbal : 1 ≤ bal) :
    scanAux (serElems xs ++ rest) bal false false i =
      scanAux rest bal false false (i + (serElems xs).length) := by
  cases xs with
  | nil => simp [serElems]
  | cons v tl =>
    simp only [wfList, Bool.and_eq_true] at hwf
    cases tl with
    | nil =>
      rw [show serElems (JsonList.cons v JsonList.nil) = ser v ++ [] from rfl,
        List.append_nil]
      exact scan_ser v rest bal i hwf.1 hbal
    | cons v2 tl2 =>
      rw [show serElems (JsonList.cons v (JsonList.cons v2 tl2)) =
            ser v ++ ',' :: serElems (JsonList.cons v2 tl2) from rfl]
      rw [List.append_assoc, List.cons_append]
      rw [scan_ser v (',' :: (serElems (JsonList.cons v2 tl2) ++ rest)) bal i hwf.1 hbal,
        scanAux_cons_inr _ _ _ _ _ _ _ _ _
          (scanStep_nonspecial bal false ',' (i + (ser v).length) (by decide)),
        scan_serElems (JsonList.cons v2 tl2) rest bal (i + (ser v).length + 1) hwf.2 hbal]
      congr 1
      simp
      omega

theorem scan_serFields (fs : JsonFields) (rest : List Char) (bal : Int) (i : Nat)
    (hwf : wfFields fs = true) (hbal : 1 ≤ bal) :
    scanAux (serFields fs ++ rest) bal false false i =
      scanAux rest bal false false (i + (serFields fs).length) := by
  cases fs with
  | nil => simp [serFields]
  | cons k v tl =>
    simp only [wfFields, Bool.and_eq_true] at hwf
    cases tl with
    | nil =>
      rw [show serFields (JsonFields.cons k v JsonFields.nil) =
            serStr k ++ ':' :: (ser v ++ []) from rfl,
        List.append_nil, List.append_assoc, List.cons_append]
      rw [scan_serStr k (':' :: (ser v ++ rest)) bal i,
        scanAux_cons_inr _ _ _ _ _ _ _ _ _
          (scanStep_nonspecial bal false ':' (i + (serStr k).length) (by decide)),
        scan_ser v rest bal (i + (serStr k).length + 1) hwf.1 hbal]
      congr 1
      simp
      omega
    | cons k2 v2 tl2 =>
      rw [show serFields (JsonFields.cons k v (JsonFields.cons k2 v2 tl2)) =
            serStr k ++ ':' :: (ser v ++ ',' :: serFields (JsonFields.cons k2 v2 tl2))
            from rfl,
        List.append_assoc, List.cons_append, List.append_assoc, List.cons_append]
      rw [scan_serStr k _ bal i,
        scanAux_cons_inr _ _ _ _ _ _ _ _ _
          (scanStep_nonspecial bal false ':' (i + (serStr k).length) (by decide)),
        scan_ser v _ bal (i + (serStr k).length + 1) hwf.1 hbal,
        scanAux_cons_inr _ _ _ _ _ _ _ _ _
          (scanStep_nonspecial bal false ','
            (i + (serStr k).length + 1 + (ser v).length) (by decide)),
        scan_serFields (JsonFields.cons k2 v2 tl2) rest bal
          (i + (serStr k).length + 1 + (ser v).length + 1) hwf.2 hbal]
      congr 1
      simp
      omega

end


/-! ## Boundary detection on a serialized object -/

theorem ser_obj_eq (fs : JsonFields) :
    ser (Json.obj fs) = '{' :: (serFields fs ++ ['}']) := rfl

theorem ser_obj_length (fs : JsonFields) :
    (ser (Json.obj fs)).length = (serFields fs).length + 2 := by
  rw [ser_obj_eq]
  simp

/-- The scan of a serialized object (with anything appended) finds the end
of exactly the object: at index `length - 1`. -/
theorem scan_topObj (fs : JsonFields) (rest : List Char) (hwf : wfFields fs = true) :
    scanAux (ser (Json.obj fs) ++ rest) 0 false false 0 =
      .found ((serFields fs).length + 1) := by
  rw [ser_obj_eq, List.cons_append,
    scanAux_cons_inr _ _ _ _ _ _ _ _ _ (scanStep_open 0 0),
    List.append_assoc, List.singleton_append]
  rw [show (0 : Int) + 1 = 1 from by norm_num]
  rw [scan_serFields fs ('}' :: rest) 1 (0 + 1) hwf (by norm_num)]
  rw [scanAux_cons, scanStep_close_found (0 + 1 + (serFields fs).length) (by omega)]
  show ScanRes.found (0 + 1 + (serFields fs).length) = _
  congr 1
  omega

/-- A nonempty strict portion of a serialized object leaves the scan
incomplete. -/
theorem scan_prefix_incomplete (fs : JsonFields) (p q : List Char)
    (hwf : wfFields fs = true) (hpq : p ++ q = ser (Json.obj fs)) (hq : q ≠ []) :
    ∃ b2 s2 e2, scanAux p 0 false false 0 = .incomplete b2 s2 e2 := by
  have htop : scanAux (p ++ q) 0 false false 0 = .found ((serFields fs).length + 1) := by
    rw [hpq]
    have := scan_topObj fs [] hwf
    rwa [List.append_nil] at this
  cases hres : scanAux p 0 false false 0 with
  | incomplete b2 s2 e2 => exact ⟨b2, s2, e2, rfl⟩
  | found j =>
    exfalso
    have h1 := scanAux_append_found p q 0 false false 0 j hres
    rw [htop] at h1
    have hj : j = (serFields fs).length + 1 := by
      injection h1.symm
    have hb := scanAux_found_bounds p 0 false false 0 j hres
    have hlen : p.length + q.length = (serFields fs).length + 2 := by
      have := congrArg List.length hpq
      simpa [ser_obj_length] using this
    have hq1 : 1 ≤ q.length := by
      cases q with
      | nil => exact absurd rfl hq
      | cons _ _ => simp
    omega
  | unbalanced =>
    exfalso
    have h1 := scanAux_append_unbalanced p q 0 false false 0 hres
    rw [htop] at h1
    exact absurd h1 (by simp)

theorem prefix_head_brace (fs : JsonFields) (p q : List Char) (hp : p ≠ [])
    (hpq : p ++ q = ser (Json.obj fs)) : p.head? = some '{' := by
  cases p with
  | nil => exact absurd rfl hp
  | cons c p2 =>
    rw [ser_obj_eq, List.cons_append] at hpq
    injection hpq with h1 _
    rw [h1]
    rfl

/-- A scan that starts at an opening brace can never report unbalanced
braces: the negative-depth branch of the source loop is unreachable when
the buffer starts with the opening character. -/
theorem scan_from_brace_not_unbalanced (t : List Char) :
    scanAux ('{' :: t) 0 false false 0 ≠ .unbalanced := by
  rw [scanAux_cons_inr _ _ _ _ _ _ _ _ _ (scanStep_open 0 0)]
  rw [show (0 : Int) + 1 = 1 from by norm_num]
  exact scanAux_not_unbalanced t 1 false false 1 (by norm_num) (by norm_num)

/-! ## Parser helper lemmas -/

theorem skipWs_cons_of (c : Char) (r : List Char) (h : jsonWs c = false) :
    skipWs (c :: r) = c :: r := by
  simp [skipWs, h]

theorem expectLit_append (lit : List Char) (v : Json) (r : List Char) :
    expectLit lit v (lit ++ r) = some (v, r) := by
  induction lit with
  | nil => rfl
  | cons l ls ih => simp [expectLit, ih]

theorem parseStrBody_esc (s : List Char) :
    ∀ rest, parseStrBody (escChars s ++ '"' :: rest) = some (s, rest) := by
  induction s with
  | nil => intro rest; simp [escChars, parseStrBody]
  | cons c cs ih =>
    intro rest
    by_cases hq : c = '"'
    · subst hq
      rw [show escChars ('"' :: cs) = '\\' :: '"' :: escChars cs from by
            simp [escChars, escChar],
        List.cons_append, List.cons_append]
      simp [parseStrBody, unescChar, ih rest]
    · by_cases hb : c = '\\'
      · subst hb
        rw [show escChars ('\\' :: cs) = '\\' :: '\\' :: escChars cs from by
              simp [escChars, escChar],
          List.cons_append, List.cons_append]
        simp [parseStrBody, unescChar, ih rest]
      · rw [show escChars (c :: cs) = c :: escChars cs from by
              simp [escChars, escChar, hq, hb],
          List.cons_append]
        simp [parseStrBody, hq, hb, ih rest]

theorem takeWhile_append_all (p : Char → Bool) (s rest : List Char)
    (hall : s.all p = true) (hrest : ∀ c, rest.head? = some c → p c = false) :
    (s ++ rest).takeWhile p = s ∧ (s ++ rest).dropWhile p = rest := by
  induction s with
  | nil =>
    simp only [List.nil_append]
    cases rest with
    | nil => simp
    | cons c r =>
      have := hrest c rfl
      simp [List.takeWhile_cons, List.dropWhile_cons, this]
  | cons c cs ih =>
    rw [List.all_cons, Bool.and_eq_true] at hall
    have := ih hall.2
    simp [List.takeWhile_cons, List.dropWhile_cons, hall.1, this.1, this.2]


/-! ## Parser roundtrip on serialized values -/

theorem serElems_cons (v : Json) (tl : JsonList) :
    serElems (JsonList.cons v tl) = ser v ++ serElemsSep tl := by
  cases tl <;> rfl

theorem serFields_cons (k : List Char) (v : Json) (tl : JsonFields) :
    serFields (JsonFields.cons k v tl) = serStr k ++ ':' :: (ser v ++ serFieldsSep tl) := by
  cases tl <;> rfl

theorem numStart_facts (c : Char) (h : numStart c = true) :
    jsonWs c = false ∧ c ≠ '{' ∧ c ≠ '[' ∧ c ≠ '"' ∧ c ≠ 'n' ∧ c ≠ 't' ∧ c ≠ 'f' := by
  refine ⟨?_, ?_, ?_, ?_, ?_, ?_, ?_⟩
  · by_contra hw
    rw [Bool.not_eq_false] at hw
    simp only [jsonWs, Bool.or_eq_true, decide_eq_true_eq] at hw
    rcases hw with ((rfl | rfl) | rfl) | rfl <;> exact absurd h (by decide)
  all_goals (rintro rfl; exact absurd h (by decide))

/-- Where a well-formed serialized value can start: never whitespace and
never a closing or separator character. -/
theorem ser_head (v : Json) (hwf : wfJson v = true) :
    ∃ c t, ser v = c :: t ∧ jsonWs c = false ∧ c ≠ ']' ∧ c ≠ '}' ∧ c ≠ ',' := by
  cases v with
  | null => exact ⟨'n', _, rfl, by decide, by decide, by decide, by decide⟩
  | bool b =>
    cases b
    · exact ⟨'f', _, rfl, by decide, by decide, by decide, by decide⟩
    · exact ⟨'t', _, rfl, by decide, by decide, by decide, by decide⟩
  | num s =>
    cases s with
    | nil => exact absurd hwf (by simp [wfJson])
    | cons c cs =>
      simp only [wfJson, Bool.and_eq_true] at hwf
      have h := hwf.1
      refine ⟨c, cs, rfl, (numStart_facts c h).1, ?_, ?_, ?_⟩ <;>
        (rintro rfl; exact absurd h (by decide))
  | str s => exact ⟨'"', _, rfl, by decide, by decide, by decide, by decide⟩
  | arr xs => exact ⟨'[', _, rfl, by decide, by decide, by decide, by decide⟩
  | obj fs => exact ⟨'{', _, rfl, by decide, by decide, by decide, by decide⟩

theorem restOk_nil (v : Json) : restOk v [] := by
  cases v <;> simp [restOk]

theorem restOk_head (v : Json) (c : Char) (r : List Char) (h : numChar c = false) :
    restOk v (c :: r) := by
  cases v <;> simp [restOk, h]

theorem parseVal_num_dispatch (f : Nat) (c : Char) (r : List Char) (h : numStart c = true) :
    parseVal (f + 1) (c :: r) =
      some (Json.num ((c :: r).takeWhile numChar), (c :: r).dropWhile numChar) := by
  obtain ⟨hws, h1, h2, h3, h4, h5, h6⟩ := numStart_facts c h
  have hsk : skipWs (c :: r) = c :: r := skipWs_cons_of c r hws
  simp [parseVal, hsk, h1, h2, h3, h4, h5, h6, h]

theorem parseVal_arr_dispatch (f : Nat) (c0 : Char) (t : List Char)
    (hws : jsonWs c0 = false) (hne : c0 ≠ ']') :
    parseVal (f + 1) ('[' :: c0 :: t) =
      (match parseElems f (c0 :: t) with
       | some (xs, r3) => some (Json.arr xs, r3)
       | none => none) := by
  have hsk : skipWs (c0 :: t) = c0 :: t := skipWs_cons_of c0 t hws
  have h0 : parseVal (f + 1) ('[' :: c0 :: t) =
      (match skipWs (c0 :: t) with
       | [] => none
       | c2 :: r2 =>
         if c2 = ']' then some (Json.arr JsonList.nil, r2)
         else
           match parseElems f (c0 :: t) with
           | some (xs, r3) => some (Json.arr xs, r3)
           | none => none) := rfl
  rw [h0, hsk]
  show (if c0 = ']' then some (Json.arr JsonList.nil, t)
        else
          match parseElems f (c0 :: t) with
          | some (xs, r3) => some (Json.arr xs, r3)
          | none => none) = _
  rw [if_neg hne]

mutual

theorem parse_ser (v : Json) (rest : List Char) (fuel : Nat)
    (hwf : wfJson v = true) (hfuel : jsize v < fuel) (hrest : restOk v rest) :
    parseVal fuel (ser v ++ rest) = some (v, rest) := by
  cases fuel with
  | zero => exact absurd hfuel (by omega)
  | succ f =>
    cases v with
    | null =>
      rw [show ser Json.null ++ rest = 'n':: 'u':: 'l':: 'l'::rest from rfl]
      rfl
    | bool b =>
      cases b
      · rw [show ser (Json.bool false) ++ rest = 'f':: 'a':: 'l':: 's':: 'e'::rest from rfl]
        rfl
      · rw [show ser (Json.bool true) ++ rest = 't':: 'r':: 'u':: 'e'::rest from rfl]
        rfl
    | num s =>
      cases s with
      | nil => exact absurd hwf (by simp [wfJson])
      | cons c cs =>
        simp only [wfJson, Bool.and_eq_true] at hwf
        rw [show ser (Json.num (c :: cs)) ++ rest = c :: (cs ++ rest) from rfl]
        rw [parseVal_num_dispatch f c (cs ++ rest) hwf.1]
        have hb : ∀ c2, rest.head? = some c2 → numChar c2 = false := by
          intro c2 hc2
          cases rest with
          | nil => simp at hc2
          | cons c3 r3 =>
            simp at hc2
            subst hc2
            exact hrest
        have ht := takeWhile_append_all numChar (c :: cs) rest hwf.2 hb
        rw [show c :: (cs ++ rest) = (c :: cs) ++ rest from rfl, ht.1, ht.2]
    | str s =>
      rw [show ser (Json.str s) ++ rest = '"' :: (escChars s ++ '"' :: rest) from by
            simp [ser, serStr]]
      rw [show parseVal (f + 1) ('"' :: (escChars s ++ '"' :: rest)) =
            (match parseStrBody (escChars s ++ '"' :: rest) with
             | some (cs, r2) => some (Json.str cs, r2)
             | none => none) from rfl]
      rw [parseStrBody_esc s rest]
    | arr xs =>
      simp only [wfJson] at hwf
      cases xs with
      | nil =>
        rw [show ser (Json.arr JsonList.nil) ++ rest = '[' :: ']' :: rest from rfl]
        rfl
      | cons v2 tl =>
        have hwf2 : wfJson v2 = true ∧ wfList tl = true := by
          simpa [wfList] using hwf
        obtain ⟨c0, t0, hser, hws0, hne1, hne2, hne3⟩ := ser_head v2 hwf2.1
        have hshape : ser (Json.arr (JsonList.cons v2 tl)) ++ rest =
            '[' :: c0 :: (t0 ++ (serElemsSep tl ++ ']' :: rest)) := by
          rw [show ser (Json.arr (JsonList.cons v2 tl)) =
                '[' :: (serElems (JsonList.cons v2 tl) ++ [']']) from rfl,
            serElems_cons, hser]
          simp
        rw [hshape, parseVal_arr_dispatch f c0 _ hws0 hne1]
        have harg : c0 :: (t0 ++ (serElemsSep tl ++ ']' :: rest)) =
            serElems (JsonList.cons v2 tl) ++ ']' :: rest := by
          rw [serElems_cons, hser]
          simp
        rw [harg]
        rw [parse_serElems (JsonList.cons v2 tl) rest f (by intro hx; cases hx) hwf
          (by simp only [jsize] at hfuel; omega)]
    | obj fs =>
      simp only [wfJson, Bool.and_eq_true] at hwf
      cases fs with
      | nil =>
        rw [show ser (Json.obj JsonFields.nil) ++ rest = '{' :: '}' :: rest from rfl]
        rfl
      | cons k v2 tl =>
        have hwf2 : wfJson v2 = true ∧ wfFields tl = true := by
          have := hwf.1
          simpa [wfFields] using this
        have hshape : ser (Json.obj (JsonFields.cons k v2 tl)) ++ rest =
            '{' :: '"' :: (escChars k ++ '"' ::
              (':' :: (ser v2 ++ (serFieldsSep tl ++ '}' :: rest)))) := by
          rw [ser_obj_eq, serFields_cons,
            show serStr k = '"' :: (escChars k ++ ['"']) from rfl]
          simp
        rw [hshape]
        rw [show parseVal (f + 1) ('{' :: '"' :: (escChars k ++ '"' ::
              (':' :: (ser v2 ++ (serFieldsSep tl ++ '}' :: rest))))) =
            (match parseMembers f ('"' :: (escChars k ++ '"' ::
                (':' :: (ser v2 ++ (serFieldsSep tl ++ '}' :: rest))))) with
             | some (fs2, r3) => some (Json.obj fs2, r3)
             | none => none) from rfl]
        have harg : ('"' : Char) :: (escChars k ++ '"' ::
              (':' :: (ser v2 ++ (serFieldsSep tl ++ '}' :: rest)))) =
            serFields (JsonFields.cons k v2 tl) ++ '}' :: rest := by
          rw [serFields_cons, show serStr k = '"' :: (escChars k ++ ['"']) from rfl]
          simp
        rw [harg]
        rw [parse_serFields (JsonFields.cons k v2 tl) rest f (by intro hx; cases hx)
          (by simp [wfFields, hwf2.1, hwf2.2])
          (by simp only [jsize] at hfuel; omega)]

theorem parse_serFields (fs : JsonFields) (rest : List Char) (fuel : Nat)
    (hne : fs ≠ JsonFields.nil) (hwf : wfFields fs = true) (hfuel : jfsize fs < fuel) :
    parseMembers fuel (serFields fs ++ '}' :: rest) = some (fs, rest) := by
  cases fuel with
  | zero => exact absurd hfuel (by omega)
  | succ f =>
    cases fs with
    | nil => exact absurd rfl hne
    | cons k v tl =>
      simp only [wfFields, Bool.and_eq_true] at hwf
      have hshape : serFields (JsonFields.cons k v tl) ++ '}' :: rest =
          '"' :: (escChars k ++ '"' ::
            (':' :: (ser v ++ (serFieldsSep tl ++ '}' :: rest)))) := by
        rw [serFields_cons, show serStr k = '"' :: (escChars k ++ ['"']) from rfl]
        simp
      rw [hshape]
      have hkey : parseMembers (f + 1) ('"' :: (escChars k ++ '"' ::
            (':' :: (ser v ++ (serFieldsSep tl ++ '}' :: rest))))) =
          (match parseVal f (ser v ++ (serFieldsSep tl ++ '}' :: rest)) with
           | none => none
           | some (v2, r3) =>
             match skipWs r3 with
             | [] => none
             | c3 :: r4 =>
               if c3 = ',' then
                 match parseMembers f r4 with
                 | none => none
                 | some (fs2, r5) => some (JsonFields.cons k v2 fs2, r5)
               else if c3 = '}' then some (JsonFields.cons k v2 JsonFields.nil, r4)
               else none) := by
        rw [show parseMembers (f + 1) ('"' :: (escChars k ++ '"' ::
              (':' :: (ser v ++ (serFieldsSep tl ++ '}' :: rest))))) =
            (match parseStrBody (escChars k ++ '"' ::
                (':' :: (ser v ++ (serFieldsSep tl ++ '}' :: rest)))) with
             | none => none
             | some (key, r1) =>
               match skipWs r1 with
               | [] => none
               | c2 :: r2 =>
                 if c2 = ':' then
                   match parseVal f r2 with
                   | none => none
                   | some (v2, r3) =>
                     match skipWs r3 with
                     | [] => none
                     | c3 :: r4 =>
                       if c3 = ',' then
                         match parseMembers f r4 with
                         | none => none
                         | some (fs2, r5) => some (JsonFields.cons key v2 fs2, r5)
                       else if c3 = '}' then
                         some (JsonFields.cons key v2 JsonFields.nil, r4)
                       else none
                 else none) from rfl]
        rw [parseStrBody_esc k (':' :: (ser v ++ (serFieldsSep tl ++ '}' :: rest)))]
        rfl
      rw [hkey]
      have hrest2 : restOk v (serFieldsSep tl ++ '}' :: rest) := by
        cases tl with
        | nil => exact restOk_head v '}' rest (by decide)
        | cons k2 v2 tl2 => exact restOk_head v ',' _ (by decide)
      rw [parse_ser v (serFieldsSep tl ++ '}' :: rest) f hwf.1
        (by simp only [jfsize] at hfuel; omega) hrest2]
      cases tl with
      | nil =>
        rw [show serFieldsSep JsonFields.nil ++ '}' :: rest = '}' :: rest from rfl]
        rfl
      | cons k2 v2 tl2 =>
        show (match parseMembers f (serFields (JsonFields.cons k2 v2 tl2) ++
                '}' :: rest) with
              | none => none
              | some (fs2, r5) => some (JsonFields.cons k v fs2, r5)) =
            some (JsonFields.cons k v (JsonFields.cons k2 v2 tl2), rest)
        rw [parse_serFields (JsonFields.cons k2 v2 tl2) rest f (by intro hx; cases hx)
          hwf.2 (by simp only [jfsize] at hfuel ⊢; omega)]

theorem parse_serElems (xs : JsonList) (rest : List Char) (fuel : Nat)
    (hne : xs ≠ JsonList.nil) (hwf : wfList xs = true) (hfuel : jlsize xs < fuel) :
    parseElems fuel (serElems xs ++ ']' :: rest) = some (xs, rest) := by
  cases fuel with
  | zero => exact absurd hfuel (by omega)
  | succ f =>
    cases xs with
    | nil => exact absurd rfl hne
    | cons v tl =>
      simp only [wfList, Bool.and_eq_true] at hwf
      have hshape : serElems (JsonList.cons v tl) ++ ']' :: rest =
          ser v ++ (serElemsSep tl ++ ']' :: rest) := by
        rw [serElems_cons]
        simp
      rw [hshape]
      have hdisp : parseElems (f + 1) (ser v ++ (serElemsSep tl ++ ']' :: rest)) =
          (match parseVal f (ser v ++ (serElemsSep tl ++ ']' :: rest)) with
           | none => none
           | some (v2, r1) =>
             match skipWs r1 with
             | [] => none
             | c :: r2 =>
               if c = ',' then
                 match parseElems f r2 with
                 | none => none
                 | some (xs2, r3) => some (JsonList.cons v2 xs2, r3)
               else if c = ']' then some (JsonList.cons v2 JsonList.nil, r2)
               else none) := rfl
      rw [hdisp]
      have hrest2 : restOk v (serElemsSep tl ++ ']' :: rest) := by
        cases tl with
        | nil => exact restOk_head v ']' rest (by decide)
        | cons v2 tl2 => exact restOk_head v ',' _ (by decide)
      rw [parse_ser v (serElemsSep tl ++ ']' :: rest) f hwf.1
        (by simp only [jlsize] at hfuel; omega) hrest2]
      cases tl with
      | nil =>
        rw [show serElemsSep JsonList.nil ++ ']' :: rest = ']' :: rest from rfl]
        rfl
      | cons v2 tl2 =>
        show (match parseElems f (serElems (JsonList.cons v2 tl2) ++ ']' :: rest) with
              | none => none
              | some (xs2, r3) => some (JsonList.cons v xs2, r3)) =
            some (JsonList.cons v (JsonList.cons v2 tl2), rest)
        rw [parse_serElems (JsonList.cons v2 tl2) rest f (by intro hx; cases hx)
          hwf.2 (by simp only [jlsize] at hfuel ⊢; omega)]

end


/-! ## Size bound: fuel from the input length suffices -/

mutual

theorem jsize_lt_ser (v : Json) (hwf : wfJson v = true) : jsize v < (ser v).length := by
  cases v with
  | null => simp [jsize, ser]
  | bool b => cases b <;> simp [jsize, ser]
  | num s =>
    cases s with
    | nil => exact absurd hwf (by simp [wfJson])
    | cons c cs => simp [jsize, ser]
  | str s =>
    have : (serStr s).length = (escChars s).length + 2 := by simp [serStr]
    simp [jsize, ser, this]
  | arr xs =>
    simp only [wfJson] at hwf
    have h := jlsize_le_ser xs hwf
    have : (ser (Json.arr xs)).length = (serElems xs).length + 2 := by
      rw [show ser (Json.arr xs) = '[' :: (serElems xs ++ [']']) from rfl]
      simp
    rw [this]
    simp only [jsize]
    omega
  | obj fs =>
    simp only [wfJson, Bool.and_eq_true] at hwf
    have h := jfsize_le_ser fs hwf.1
    rw [ser_obj_length]
    simp only [jsize]
    omega

theorem jlsize_le_ser (xs : JsonList) (hwf : wfList xs = true) :
    jlsize xs ≤ (serElems xs).length := by
  cases xs with
  | nil => simp [jlsize, serElems]
  | cons v tl =>
    simp only [wfList, Bool.and_eq_true] at hwf
    have hv := jsize_lt_ser v hwf.1
    rw [serElems_cons]
    cases tl with
    | nil =>
      simp only [jlsize, serElemsSep, List.length_append]
      simp [jlsize]
      omega
    | cons v2 tl2 =>
      have ht := jlsize_le_ser (JsonList.cons v2 tl2) hwf.2
      simp only [jlsize, serElemsSep, List.length_append, List.length_cons] at *
      omega

theorem jfsize_le_ser (fs : JsonFields) (hwf : wfFields fs = true) :
    jfsize fs ≤ (serFields fs).length := by
  cases fs with
  | nil => simp [jfsize, serFields]
  | cons k v tl =>
    simp only [wfFields, Bool.and_eq_true] at hwf
    have hv := jsize_lt_ser v hwf.1
    rw [serFields_cons]
    cases tl with
    | nil =>
      simp only [jfsize, serFieldsSep, List.length_append, List.length_cons]
      simp [jfsize]
      omega
    | cons k2 v2 tl2 =>
      have ht := jfsize_le_ser (JsonFields.cons k2 v2 tl2) hwf.2
      simp only [jfsize, serFieldsSep, List.length_append, List.length_cons] at *
      omega

end

/-- The model of `JSON.parse` inverts the serializer on well-formed values. -/
theorem jsonParse_ser (v : Json) (hwf : wfJson v = true) : jsonParse (ser v) = some v := by
  unfold jsonParse
  have h := parse_ser v [] ((ser v).length + 1) hwf
    (by have := jsize_lt_ser v hwf; omega) (restOk_nil v)
  rw [List.append_nil] at h
  rw [h]
  rfl


/-! ## Drain-loop lemmas -/

theorem drainLoop_nil (comps : Option (List (List Char))) (fuel : Nat) :
    drainLoop comps fuel [] = ([], true, []) := by
  cases fuel <;> rfl

/-- Unfolding of one drain iteration on a buffer that starts with the
opening brace: the preamble recovery is skipped and the scan decides. -/
theorem drainLoop_brace (comps : Option (List (List Char))) (fuel : Nat) (t : List Char) :
    drainLoop comps (fuel + 1) ('{' :: t) =
      (match scanAux ('{' :: t) 0 false false 0 with
       | .incomplete _ _ _ => ('{' :: t, true, [])
       | .unbalanced => ([], false, [Event.error MErrType.jsonParseError])
       | .found i =>
         match jsonParse (('{' :: t).take (i + 1)) with
         | some parsed =>
           if tsOk parsed then
             ((drainLoop comps fuel
                 (('{' :: t).drop (i + 1 + consumedAdjust (('{' :: t).drop (i + 1))))).1,
              (drainLoop comps fuel
                 (('{' :: t).drop (i + 1 + consumedAdjust (('{' :: t).drop (i + 1))))).2.1,
              Event.data (mkFinalTimed comps parsed) (needsUptime comps) ::
                (drainLoop comps fuel
                  (('{' :: t).drop (i + 1 + consumedAdjust (('{' :: t).drop (i + 1))))).2.2)
           else
             ((drainLoop comps fuel
                 (('{' :: t).drop (i + 1 + consumedAdjust (('{' :: t).drop (i + 1))))).1,
              (drainLoop comps fuel
                 (('{' :: t).drop (i + 1 + consumedAdjust (('{' :: t).drop (i + 1))))).2.1,
              Event.error MErrType.jsonParseError ::
                (drainLoop comps fuel
                  (('{' :: t).drop (i + 1 + consumedAdjust (('{' :: t).drop (i + 1))))).2.2)
         | none =>
           (('{' :: t).drop (i + 1 + consumedAdjust (('{' :: t).drop (i + 1))), true,
            [Event.error MErrType.jsonParseError])) := rfl

theorem drainLoop_waiting (comps : Option (List (List Char))) (fuel : Nat) (t : List Char)
    (b2 : Int) (s2 e2 : Bool)
    (hscan : scanAux ('{' :: t) 0 false false 0 = .incomplete b2 s2 e2) :
    drainLoop comps (fuel + 1) ('{' :: t) = ('{' :: t, true, []) := by
  rw [drainLoop_brace, hscan]

theorem drainLoop_found (comps : Option (List (List Char))) (fuel : Nat) (t : List Char)
    (i : Nat) (hscan : scanAux ('{' :: t) 0 false false 0 = .found i) :
    drainLoop comps (fuel + 1) ('{' :: t) =
      (match jsonParse (('{' :: t).take (i + 1)) with
       | some parsed =>
         if tsOk parsed then
           ((drainLoop comps fuel
               (('{' :: t).drop (i + 1 + consumedAdjust (('{' :: t).drop (i + 1))))).1,
            (drainLoop comps fuel
               (('{' :: t).drop (i + 1 + consumedAdjust (('{' :: t).drop (i + 1))))).2.1,
            Event.data (mkFinalTimed comps parsed) (needsUptime comps) ::
              (drainLoop comps fuel
                (('{' :: t).drop (i + 1 + consumedAdjust (('{' :: t).drop (i + 1))))).2.2)
         else
           ((drainLoop comps fuel
               (('{' :: t).drop (i + 1 + consumedAdjust (('{' :: t).drop (i + 1))))).1,
            (drainLoop comps fuel
               (('{' :: t).drop (i + 1 + consumedAdjust (('{' :: t).drop (i + 1))))).2.1,
            Event.error MErrType.jsonParseError ::
              (drainLoop comps fuel
                (('{' :: t).drop (i + 1 + consumedAdjust (('{' :: t).drop (i + 1))))).2.2)
       | none =>
         (('{' :: t).drop (i + 1 + consumedAdjust (('{' :: t).drop (i + 1))), true,
          [Event.error MErrType.jsonParseError])) := by
  rw [drainLoop_brace, hscan]

/-- Draining a buffer holding exactly one serialized report object with a
string timestamp emits exactly one data event and empties the buffer. -/
theorem drainLoop_exact (comps : Option (List (List Char))) (fuel : Nat) (fs : JsonFields)
    (hwf : wfJson (Json.obj fs) = true) (hts : tsOk (Json.obj fs) = true) :
    drainLoop comps (fuel + 1) (ser (Json.obj fs)) =
      ([], true, [Event.data (mkFinalTimed comps (Json.obj fs)) (needsUptime comps)]) := by
  have hwff : wfFields fs = true := by
    simp only [wfJson, Bool.and_eq_true] at hwf
    exact hwf.1
  have hscan : scanAux ('{' :: (serFields fs ++ ['}'])) 0 false false 0 =
      .found ((serFields fs).length + 1) := by
    have := scan_topObj fs [] hwff
    rwa [ser_obj_eq, List.append_nil] at this
  have hlen : ('{' :: (serFields fs ++ ['}'])).length = (serFields fs).length + 1 + 1 := by
    simp
  have htake : ('{' :: (serFields fs ++ ['}'])).take ((serFields fs).length + 1 + 1) =
      '{' :: (serFields fs ++ ['}']) := by
    rw [← hlen, List.take_length]
  have hdrop1 : ('{' :: (serFields fs ++ ['}'])).drop ((serFields fs).length + 1 + 1) =
      [] := by
    rw [← hlen, List.drop_length]
  rw [ser_obj_eq, drainLoop_found comps fuel _ _ hscan, hdrop1, htake]
  rw [show consumedAdjust [] = 0 from rfl, Nat.add_zero, hdrop1, ← ser_obj_eq,
    jsonParse_ser _ hwf]
  show (if tsOk (Json.obj fs) = true then _ else _) = _
  rw [if_pos hts, drainLoop_nil]


/-- Draining a buffer that starts with one serialized report object emits
its data event, consumes the object plus one trailing line terminator, and
continues on the remainder. -/
theorem drainLoop_obj_append (comps : Option (List (List Char))) (fuel : Nat)
    (fs : JsonFields) (rest : List Char)
    (hwf : wfJson (Json.obj fs) = true) (hts : tsOk (Json.obj fs) = true) :
    drainLoop comps (fuel + 1) (ser (Json.obj fs) ++ rest) =
      ((drainLoop comps fuel (rest.drop (consumedAdjust rest))).1,
       (drainLoop comps fuel (rest.drop (consumedAdjust rest))).2.1,
       Event.data (mkFinalTimed comps (Json.obj fs)) (needsUptime comps) ::
         (drainLoop comps fuel (rest.drop (consumedAdjust rest))).2.2) := by
  have hwff : wfFields fs = true := by
    simp only [wfJson, Bool.and_eq_true] at hwf
    exact hwf.1
  have hshape : ser (Json.obj fs) ++ rest =
      '{' :: ((serFields fs ++ ['}']) ++ rest) := by
    rw [ser_obj_eq]
    simp
  have hscan : scanAux ('{' :: ((serFields fs ++ ['}']) ++ rest)) 0 false false 0 =
      .found ((serFields fs).length + 1) := by
    have := scan_topObj fs rest hwff
    rwa [ser_obj_eq, List.cons_append] at this
  have hlen : (ser (Json.obj fs)).length = (serFields fs).length + 1 + 1 := by
    rw [ser_obj_length]
  have htake : ('{' :: ((serFields fs ++ ['}']) ++ rest)).take
      ((serFields fs).length + 1 + 1) = ser (Json.obj fs) := by
    rw [← List.cons_append, ← ser_obj_eq, ← hlen, List.take_left]
  have hdrop : ('{' :: ((serFields fs ++ ['}']) ++ rest)).drop
      ((serFields fs).length + 1 + 1) = rest := by
    rw [← List.cons_append, ← ser_obj_eq, ← hlen, List.drop_left]
  have hdrop2 : ∀ a : Nat, ('{' :: ((serFields fs ++ ['}']) ++ rest)).drop
      ((serFields fs).length + 1 + 1 + a) = rest.drop a := by
    intro a
    conv_rhs => rw [← hdrop, List.drop_drop]
  rw [hshape, drainLoop_found comps fuel _ _ hscan, htake, hdrop,
    hdrop2 (consumedAdjust rest), jsonParse_ser _ hwf]
  show (if tsOk (Json.obj fs) = true then _ else _) = _
  rw [if_pos hts]

/-- A stray closing brace in front of an object is silently discarded by
the preamble recovery inside the same drain iteration. -/
theorem drainLoop_stray (comps : Option (List (List Char))) (fuel : Nat) (t : List Char) :
    drainLoop comps (fuel + 1) ('}' :: '{' :: t) =
      drainLoop comps (fuel + 1) ('{' :: t) := by
  rw [drainLoop_brace]
  rfl

/-- Two well-formed objects separated by one unmatched closing brace both
frame correctly, and no error event is emitted. -/
theorem drainLoop_two (comps : Option (List (List Char))) (fuel : Nat)
    (fs1 fs2 : JsonFields)
    (hwf1 : wfJson (Json.obj fs1) = true) (hts1 : tsOk (Json.obj fs1) = true)
    (hwf2 : wfJson (Json.obj fs2) = true) (hts2 : tsOk (Json.obj fs2) = true) :
    drainLoop comps (fuel + 2) (ser (Json.obj fs1) ++ '}' :: ser (Json.obj fs2)) =
      ([], true,
       [Event.data (mkFinalTimed comps (Json.obj fs1)) (needsUptime comps),
        Event.data (mkFinalTimed comps (Json.obj fs2)) (needsUptime comps)]) := by
  rw [show fuel + 2 = (fuel + 1) + 1 from rfl,
    drainLoop_obj_append comps (fuel + 1) fs1 ('}' :: ser (Json.obj fs2)) hwf1 hts1]
  rw [show consumedAdjust ('}' :: ser (Json.obj fs2)) = 0 from rfl, List.drop_zero]
  rw [show ('}' :: ser (Json.obj fs2)) = '}' :: '{' :: (serFields fs2 ++ ['}']) from by
        rw [ser_obj_eq]]
  rw [drainLoop_stray comps fuel _, ← ser_obj_eq, drainLoop_exact comps fuel fs2 hwf2 hts2]


/-! ## The stdout data handler on complete and partial objects -/

theorem processChunks_nil (comps : Option (List (List Char))) (st : FramerState) :
    processChunks comps st [] = (st, []) := rfl

theorem processChunks_cons (comps : Option (List (List Char))) (st : FramerState)
    (p : List Char) (ps : List (List Char)) :
    processChunks comps st (p :: ps) =
      ((processChunks comps (stdoutDataHandler comps st p).1 ps).1,
       (stdoutDataHandler comps st p).2 ++
         (processChunks comps (stdoutDataHandler comps st p).1 ps).2) := rfl

theorem processChunks_cons_of (comps : Option (List (List Char))) (st st2 : FramerState)
    (p : List Char) (ps : List (List Char)) (evs1 : List Event)
    (h : stdoutDataHandler comps st p = (st2, evs1)) :
    processChunks comps st (p :: ps) =
      ((processChunks comps st2 ps).1, evs1 ++ (processChunks comps st2 ps).2) := by
  rw [processChunks_cons, h]

/-- With leading noise already skipped, the handler is exactly the drain
loop on the extended buffer. -/
theorem handler_steady (comps : Option (List (List Char))) (b0 ch : List Char) :
    stdoutDataHandler comps ⟨b0, true⟩ ch =
      (⟨(drainLoop comps ((b0 ++ ch).length + 1) (b0 ++ ch)).1,
        (drainLoop comps ((b0 ++ ch).length + 1) (b0 ++ ch)).2.1⟩,
       (drainLoop comps ((b0 ++ ch).length + 1) (b0 ++ ch)).2.2) := rfl

/-- One complete serialized report object delivered as a single chunk to
the steady-state framer yields exactly one data event. -/
theorem handler_single (comps : Option (List (List Char))) (fs : JsonFields)
    (hwf : wfJson (Json.obj fs) = true) (hts : tsOk (Json.obj fs) = true) :
    stdoutDataHandler comps ⟨[], true⟩ (ser (Json.obj fs)) =
      (⟨[], true⟩, [Event.data (mkFinalTimed comps (Json.obj fs)) (needsUptime comps)]) := by
  rw [handler_steady, List.nil_append,
    drainLoop_exact comps ((ser (Json.obj fs)).length) fs hwf hts]

/-- A nonempty strict portion of a serialized object leaves the handler
waiting with the portion buffered and nothing emitted. -/
theorem handler_waiting (comps : Option (List (List Char))) (fs : JsonFields)
    (pre p q : List Char) (hwff : wfFields fs = true)
    (hpq : (pre ++ p) ++ q = ser (Json.obj fs)) (hp : pre ++ p ≠ []) (hq : q ≠ []) :
    stdoutDataHandler comps ⟨pre, true⟩ p = (⟨pre ++ p, true⟩, []) := by
  have hhead := prefix_head_brace fs (pre ++ p) q hp hpq
  rw [handler_steady]
  cases hb : pre ++ p with
  | nil => exact absurd hb hp
  | cons c t =>
    rw [hb] at hhead
    simp only [List.head?] at hhead
    injection hhead with hc
    subst hc
    obtain ⟨b2, s2, e2, hscan⟩ := scan_prefix_incomplete fs (pre ++ p) q hwff hpq hq
    rw [hb] at hscan
    rw [show ('{' :: t).length + 1 = (t.length + 1) + 1 from by simp,
      drainLoop_waiting comps (t.length + 1) t b2 s2 e2 hscan]

/-- Feeding a serialized object split across any chunk sequence whose
pieces are nonempty: after each proper prefix the framer waits; the chunk
that completes the object produces the single data event. -/
theorem processChunks_prefix (comps : Option (List (List Char))) (fs : JsonFields)
    (hwf : wfJson (Json.obj fs) = true) (hts : tsOk (Json.obj fs) = true) :
    ∀ (parts : List (List Char)) (pre : List Char),
      (∀ p ∈ parts, p ≠ []) → parts ≠ [] → pre ++ parts.join = ser (Json.obj fs) →
      processChunks comps ⟨pre, true⟩ parts =
        (⟨[], true⟩,
         [Event.data (mkFinalTimed comps (Json.obj fs)) (needsUptime comps)]) := by
  have hwff : wfFields fs = true := by
    simp only [wfJson, Bool.and_eq_true] at hwf
    exact hwf.1
  intro parts
  induction parts with
  | nil => intro pre _ hne _; exact absurd rfl hne
  | cons p ps ih =>
    intro pre hall hne hjoin
    cases ps with
    | nil =>
      have hj : pre ++ p = ser (Json.obj fs) := by
        simpa using hjoin
      have h1 : stdoutDataHandler comps ⟨pre, true⟩ p =
          (⟨[], true⟩,
           [Event.data (mkFinalTimed comps (Json.obj fs)) (needsUptime comps)]) := by
        rw [handler_steady, hj, drainLoop_exact comps ((ser (Json.obj fs)).length) fs hwf hts]
      rw [processChunks_cons_of comps _ _ _ _ _ h1, processChunks_nil]
      rfl
    | cons p2 ps2 =>
      have hassoc : (pre ++ p) ++ (p2 :: ps2).join = ser (Json.obj fs) := by
        rw [List.append_assoc]
        simpa using hjoin
      have hp : pre ++ p ≠ [] := by
        have hpne : p ≠ [] := hall p (by simp)
        simp only [ne_eq, List.append_eq_nil]
        rintro ⟨-, rfl⟩
        exact hpne rfl
      have hq : (p2 :: ps2).join ≠ [] := by
        have hp2 : p2 ≠ [] := hall p2 (by simp)
        cases p2 with
        | nil => exact absurd rfl hp2
        | cons c cs => simp
      have h1 := handler_waiting comps fs pre p _ hwff hassoc hp hq
      rw [processChunks_cons_of comps _ _ _ _ _ h1]
      rw [ih (pre ++ p) (fun x hx => hall x (by simp [hx])) (by simp) hassoc]
      rfl


/-! ## Claims -/

/-- C1: a valid JSON report object (with its mandatory string `Timestamp`)
delivered to the timed-mode framer in steady state (leading noise already
skipped, empty buffer) as one single chunk emits exactly one data event
whose payload is the code's `finalReport` for that object; and the same
object split across any sequence of nonempty chunks emits exactly the same
single event (chunking invariance). -/
theorem claim_C1 (comps : Option (List (List Char))) (fs : JsonFields)
    (hwf : wfJson (Json.obj fs) = true) (hts : tsOk (Json.obj fs) = true) :
    stdoutDataHandler comps ⟨[], true⟩ (ser (Json.obj fs)) =
      (⟨[], true⟩,
       [Event.data (mkFinalTimed comps (Json.obj fs)) (needsUptime comps)]) ∧
    (∀ parts : List (List Char), (∀ p ∈ parts, p ≠ []) → parts ≠ [] →
      parts.join = ser (Json.obj fs) →
      processChunks comps ⟨[], true⟩ parts =
        (⟨[], true⟩,
         [Event.data (mkFinalTimed comps (Json.obj fs)) (needsUptime comps)])) := by
  constructor
  · exact handler_single comps fs hwf hts
  · intro parts hall hne hjoin
    exact processChunks_prefix comps fs hwf hts parts [] hall hne (by simpa using hjoin)

theorem claim_C1_witness :
    processChunks none ⟨[], true⟩
      [(ser (Json.obj wFs)).take 5, (ser (Json.obj wFs)).drop 5] =
      (⟨[], true⟩,
       [Event.data (mkFinalTimed none (Json.obj wFs)) (needsUptime none)]) :=
  (claim_C1 none wFs (by decide) (by decide)).2
    [(ser (Json.obj wFs)).take 5, (ser (Json.obj wFs)).drop 5]
    (by decide) (by decide) (by decide)

/-- C2: the brace-depth scan ignores braces inside quoted strings — for a
well-formed object one of whose strings contains a literal brace, the
boundary is detected exactly at the object's final character, neither
prematurely nor late — and at the step level an escaped quote does not
toggle the in-string state, an unescaped quote does, and braces inside a
string leave the depth unchanged. -/
theorem claim_C2 :
    (∀ (fs : JsonFields) (rest : List Char), wfJson (Json.obj fs) = true →
       containsBraceInString (Json.obj fs) = true →
       scanAux (ser (Json.obj fs) ++ rest) 0 false false 0 =
         .found ((ser (Json.obj fs)).length - 1)) ∧
    (∀ (bal : Int) (inStr : Bool) (i : Nat),
       scanStep bal inStr true '"' i = .inr (bal, inStr, false)) ∧
    (∀ (bal : Int) (inStr : Bool) (i : Nat),
       scanStep bal inStr false '"' i = .inr (bal, !inStr, false)) ∧
    (∀ (bal : Int) (i : Nat), scanStep bal true false '{' i = .inr (bal, true, false)) ∧
    (∀ (bal : Int) (i : Nat), scanStep bal true false '}' i = .inr (bal, true, false)) := by
  refine ⟨?_, ?_, ?_, ?_, ?_⟩
  · intro fs rest hwf _
    have hwff : wfFields fs = true := by
      simp only [wfJson, Bool.and_eq_true] at hwf
      exact hwf.1
    rw [scan_topObj fs rest hwff, ser_obj_length]
    congr 1
  · intro bal inStr i
    exact scanStep_esc bal inStr '"' i
  · intro bal inStr i
    exact scanStep_quote bal inStr i
  · intro bal i
    exact scanStep_inStr bal '{' i (by decide) (by decide)
  · intro bal i
    exact scanStep_inStr bal '}' i (by decide) (by decide)

theorem claim_C2_witness :
    scanAux (ser (Json.obj wFsBrace) ++ []) 0 false false 0 =
      .found ((ser (Json.obj wFsBrace)).length - 1) :=
  claim_C2.1 wFsBrace [] (by decide) (by decide)

/-- C3 counterexample: on the stream holding one extra unmatched closing
brace between two well-formed report objects, the framer emits the two data
events and no error event at all, contradicting the claim that a
MalformedStream error is signalled. -/
theorem claim_C3_cex :
    stdoutDataHandler none ⟨[], true⟩ strayStream =
      (⟨[], true⟩,
       [Event.data (mkFinalTimed none (Json.obj wFs)) true,
        Event.data (mkFinalTimed none (Json.obj wFs2)) true]) ∧
    hasErrorEvent (stdoutDataHandler none ⟨[], true⟩ strayStream).2 = false := by
  constructor <;> rfl

/-- C3 (amended): a stream with one extra unmatched closing brace between
otherwise well-formed objects is handled by silently discarding the stray
brace as inter-object noise: no error event is emitted and both objects
frame correctly.  The negative-depth branch that would signal the error is
unreachable, since every scan begins at an opening brace. -/
theorem claim_C3_amended (comps : Option (List (List Char))) (fs1 fs2 : JsonFields)
    (hwf1 : wfJson (Json.obj fs1) = true) (hts1 : tsOk (Json.obj fs1) = true)
    (hwf2 : wfJson (Json.obj fs2) = true) (hts2 : tsOk (Json.obj fs2) = true) :
    (stdoutDataHandler comps ⟨[], true⟩ (ser (Json.obj fs1) ++ '}' :: ser (Json.obj fs2)) =
      (⟨[], true⟩,
       [Event.data (mkFinalTimed comps (Json.obj fs1)) (needsUptime comps),
        Event.data (mkFinalTimed comps (Json.obj fs2)) (needsUptime comps)]) ∧
     hasErrorEvent (stdoutDataHandler comps ⟨[], true⟩
       (ser (Json.obj fs1) ++ '}' :: ser (Json.obj fs2))).2 = false) ∧
    (∀ t : List Char, scanAux ('{' :: t) 0 false false 0 ≠ .unbalanced) := by
  have hmain : stdoutDataHandler comps ⟨[], true⟩
      (ser (Json.obj fs1) ++ '}' :: ser (Json.obj fs2)) =
      (⟨[], true⟩,
       [Event.data (mkFinalTimed comps (Json.obj fs1)) (needsUptime comps),
        Event.data (mkFinalTimed comps (Json.obj fs2)) (needsUptime comps)]) := by
    rw [handler_steady, List.nil_append]
    have hlen : 2 ≤ (ser (Json.obj fs1) ++ '}' :: ser (Json.obj fs2)).length := by
      rw [List.length_append, ser_obj_length]
      simp
      omega
    rw [show (ser (Json.obj fs1) ++ '}' :: ser (Json.obj fs2)).length + 1 =
        ((ser (Json.obj fs1) ++ '}' :: ser (Json.obj fs2)).length - 1) + 2 from by omega]
    rw [drainLoop_two comps _ fs1 fs2 hwf1 hts1 hwf2 hts2]
  refine ⟨⟨hmain, ?_⟩, ?_⟩
  · rw [hmain]
    rfl
  · intro t
    exact scan_from_brace_not_unbalanced t

theorem claim_C3_witness :
    stdoutDataHandler none ⟨[], true⟩ (ser (Json.obj wFsBrace) ++ '}' :: ser (Json.obj wFs2)) =
      (⟨[], true⟩,
       [Event.data (mkFinalTimed none (Json.obj wFsBrace)) (needsUptime none),
        Event.data (mkFinalTimed none (Json.obj wFs2)) (needsUptime none)]) :=
  (claim_C3_amended none wFsBrace wFs2 (by decide) (by decide) (by decide) (by decide)).1.1


/-! ## The buffer invariant after an error-free drain (claim C4) -/

theorem findCharIdx_drop (c : Char) :
    ∀ (l : List Char) (j : Nat), findCharIdx c l = some j →
      (l.drop j).head? = some c := by
  intro l
  induction l with
  | nil => intro j h; simp [findCharIdx] at h
  | cons x xs ih =>
    intro j h
    simp only [findCharIdx] at h
    by_cases hx : x = c
    · rw [if_pos hx] at h
      injection h with hj
      subst hj
      simp [hx]
    · rw [if_neg hx] at h
      cases hf : findCharIdx c xs with
      | none => rw [hf] at h; simp at h
      | some j2 =>
        rw [hf] at h
        simp at h
        subst h
        rw [show (x :: xs).drop (j2 + 1) = xs.drop j2 from rfl]
        exact ih j2 hf

theorem preambleAdjust_brace (b : List Char) (h : b.head? = some '{') :
    preambleAdjust b = b := by
  unfold preambleAdjust
  rw [if_pos h]

theorem preambleAdjust_found (b : List Char) (j : Nat) (hh : ¬ b.head? = some '{')
    (hf : findCharIdx '{' b = some j) : preambleAdjust b = b.drop j := by
  unfold preambleAdjust
  rw [if_neg hh, hf]

theorem preambleAdjust_none (b : List Char) (hh : ¬ b.head? = some '{')
    (hf : findCharIdx '{' b = none) :
    preambleAdjust b = (if b.all jsTrimWs then [] else b) := by
  unfold preambleAdjust
  rw [if_neg hh, hf]

theorem preambleAdjust_length_le (b : List Char) :
    (preambleAdjust b).length ≤ b.length := by
  unfold preambleAdjust
  by_cases h1 : b.head? = some '{'
  · rw [if_pos h1]
  · rw [if_neg h1]
    cases hf : findCharIdx '{' b with
    | some j =>
      show (b.drop j).length ≤ b.length
      rw [List.length_drop]
      omega
    | none =>
      show (if b.all jsTrimWs then [] else b).length ≤ b.length
      by_cases h2 : b.all jsTrimWs = true
      · rw [if_pos h2]
        simp
      · rw [if_neg h2]

/-- General unfolding of one drain iteration on a nonempty buffer. -/
theorem drainLoop_succ (comps : Option (List (List Char))) (fuel : Nat) (b : List Char)
    (hb : b ≠ []) :
    drainLoop comps (fuel + 1) b =
      (if (preambleAdjust b).head? ≠ some '{' then (preambleAdjust b, true, [])
       else
         match scanAux (preambleAdjust b) 0 false false 0 with
         | .incomplete _ _ _ => (preambleAdjust b, true, [])
         | .unbalanced => ([], false, [Event.error MErrType.jsonParseError])
         | .found i =>
           match jsonParse ((preambleAdjust b).take (i + 1)) with
           | some parsed =>
             if tsOk parsed then
               ((drainLoop comps fuel ((preambleAdjust b).drop
                   (i + 1 + consumedAdjust ((preambleAdjust b).drop (i + 1))))).1,
                (drainLoop comps fuel ((preambleAdjust b).drop
                   (i + 1 + consumedAdjust ((preambleAdjust b).drop (i + 1))))).2.1,
                Event.data (mkFinalTimed comps parsed) (needsUptime comps) ::
                  (drainLoop comps fuel ((preambleAdjust b).drop
                    (i + 1 + consumedAdjust ((preambleAdjust b).drop (i + 1))))).2.2)
             else
               ((drainLoop comps fuel ((preambleAdjust b).drop
                   (i + 1 + consumedAdjust ((preambleAdjust b).drop (i + 1))))).1,
                (drainLoop comps fuel ((preambleAdjust b).drop
                   (i + 1 + consumedAdjust ((preambleAdjust b).drop (i + 1))))).2.1,
                Event.error MErrType.jsonParseError ::
                  (drainLoop comps fuel ((preambleAdjust b).drop
                    (i + 1 + consumedAdjust ((preambleAdjust b).drop (i + 1))))).2.2)
           | none =>
             ((preambleAdjust b).drop (i + 1 + consumedAdjust ((preambleAdjust b).drop (i + 1))),
              true, [Event.error MErrType.jsonParseError])) := by
  cases b with
  | nil => exact absurd rfl hb
  | cons c t => rfl

/- Closed-form equations for one drain step on a brace-headed buffer,
   one per scan/parse outcome. -/
theorem drainLoop_brace_incomplete (comps : Option (List (List Char))) (f : Nat)
    (t2 : List Char) (b2 : Int) (s2 e2 : Bool)
    (hscan : scanAux ('{' :: t2) 0 false false 0 = .incomplete b2 s2 e2) :
    drainLoop comps (f + 1) ('{' :: t2) = ('{' :: t2, true, []) := by
  rw [drainLoop_brace, hscan]

theorem drainLoop_brace_unbalanced (comps : Option (List (List Char))) (f : Nat)
    (t2 : List Char)
    (hscan : scanAux ('{' :: t2) 0 false false 0 = .unbalanced) :
    drainLoop comps (f + 1) ('{' :: t2) =
      ([], false, [Event.error MErrType.jsonParseError]) := by
  rw [drainLoop_brace, hscan]

theorem drainLoop_found_none (comps : Option (List (List Char))) (f : Nat)
    (t2 : List Char) (i : Nat)
    (hscan : scanAux ('{' :: t2) 0 false false 0 = .found i)
    (hp : jsonParse (('{' :: t2).take (i + 1)) = none) :
    drainLoop comps (f + 1) ('{' :: t2) =
      (('{' :: t2).drop (i + 1 + consumedAdjust (('{' :: t2).drop (i + 1))), true,
        [Event.error MErrType.jsonParseError]) := by
  rw [drainLoop_found comps f t2 i hscan, hp]

theorem drainLoop_found_some (comps : Option (List (List Char))) (f : Nat)
    (t2 : List Char) (i : Nat) (parsed : Json)
    (hscan : scanAux ('{' :: t2) 0 false false 0 = .found i)
    (hp : jsonParse (('{' :: t2).take (i + 1)) = some parsed) :
    drainLoop comps (f + 1) ('{' :: t2) =
      (if tsOk parsed then
        ((drainLoop comps f
            (('{' :: t2).drop (i + 1 + consumedAdjust (('{' :: t2).drop (i + 1))))).1,
         (drainLoop comps f
            (('{' :: t2).drop (i + 1 + consumedAdjust (('{' :: t2).drop (i + 1))))).2.1,
         Event.data (mkFinalTimed comps parsed) (needsUptime comps) ::
           (drainLoop comps f
             (('{' :: t2).drop (i + 1 + consumedAdjust (('{' :: t2).drop (i + 1))))).2.2)
       else
        ((drainLoop comps f
            (('{' :: t2).drop (i + 1 + consumedAdjust (('{' :: t2).drop (i + 1))))).1,
         (drainLoop comps f
            (('{' :: t2).drop (i + 1 + consumedAdjust (('{' :: t2).drop (i + 1))))).2.1,
         Event.error MErrType.jsonParseError ::
           (drainLoop comps f
             (('{' :: t2).drop (i + 1 + consumedAdjust (('{' :: t2).drop (i + 1))))).2.2)) := by
  rw [drainLoop_found comps f t2 i hscan, hp]

/-- After an error-free drain of a buffer, the remaining buffer is empty,
or contains no opening brace at all (pending separator noise), or starts
with an opening brace and its scan is incomplete (a strict portion of at
most one object). -/
theorem drainLoop_inv (comps : Option (List (List Char))) :
    ∀ (fuel : Nat) (b : List Char), b.length ≤ fuel →
      hasErrorEvent (drainLoop comps fuel b).2.2 = false →
      ((drainLoop comps fuel b).1 = [] ∨
       findCharIdx '{' (drainLoop comps fuel b).1 = none ∨
       ((drainLoop comps fuel b).1.head? = some '{' ∧
        ∃ b2 s2 e2,
          scanAux (drainLoop comps fuel b).1 0 false false 0 = .incomplete b2 s2 e2)) := by
  intro fuel
  induction fuel with
  | zero =>
    intro b hlen _
    have hb : b = [] := List.eq_nil_of_length_eq_zero (Nat.le_zero.mp hlen)
    subst hb
    rw [drainLoop_nil]
    exact Or.inl rfl
  | succ f ih =>
    intro b hlen hnoerr
    cases hbn : b with
    | nil =>
      rw [drainLoop_nil]
      exact Or.inl rfl
    | cons c t =>
      subst hbn
      by_cases hpre : (preambleAdjust (c :: t)).head? = some '{'
      · obtain ⟨t2, ht2⟩ : ∃ t2, preambleAdjust (c :: t) = '{' :: t2 := by
          cases hp2 : preambleAdjust (c :: t) with
          | nil => rw [hp2] at hpre; simp at hpre
          | cons x xs =>
            rw [hp2] at hpre
            simp only [List.head?, Option.some.injEq] at hpre
            exact ⟨xs, by rw [hpre]⟩
        have hlen2 : ('{' :: t2).length ≤ (c :: t).length := by
          rw [← ht2]
          exact preambleAdjust_length_le (c :: t)
        have hdl : drainLoop comps (f + 1) (c :: t) =
            drainLoop comps (f + 1) ('{' :: t2) := by
          rw [drainLoop_succ comps f (c :: t) (by simp), if_neg (by simpa using hpre), ht2,
            drainLoop_brace]
        rw [hdl] at hnoerr ⊢
        cases hscan : scanAux ('{' :: t2) 0 false false 0 with
        | incomplete b2 s2 e2 =>
          rw [drainLoop_brace_incomplete comps f t2 b2 s2 e2 hscan]
          exact Or.inr (Or.inr ⟨rfl, b2, s2, e2, hscan⟩)
        | unbalanced =>
          rw [drainLoop_brace_unbalanced comps f t2 hscan]
          exact Or.inl rfl
        | found i =>
          cases hp : jsonParse (('{' :: t2).take (i + 1)) with
          | none =>
            rw [drainLoop_found_none comps f t2 i hscan hp] at hnoerr
            simp [hasErrorEvent, isErrorEvent] at hnoerr
          | some parsed =>
            by_cases hts : tsOk parsed = true
            · rw [drainLoop_found_some comps f t2 i parsed hscan hp, if_pos hts] at hnoerr ⊢
              replace hnoerr : hasErrorEvent (drainLoop comps f (('{' :: t2).drop
                  (i + 1 + consumedAdjust (('{' :: t2).drop (i + 1))))).2.2 = false := by
                simpa [hasErrorEvent, isErrorEvent] using hnoerr
              have hdroplen : (('{' :: t2).drop
                  (i + 1 + consumedAdjust (('{' :: t2).drop (i + 1)))).length ≤ f := by
                rw [List.length_drop]
                simp only [List.length_cons] at hlen2 hlen ⊢
                omega
              exact ih _ hdroplen hnoerr
            · rw [drainLoop_found_some comps f t2 i parsed hscan hp, if_neg hts] at hnoerr
              simp [hasErrorEvent, isErrorEvent] at hnoerr
      · rw [drainLoop_succ comps f (c :: t) (by simp)] at hnoerr ⊢
        rw [if_pos (by simpa using hpre)] at hnoerr ⊢
        by_cases hh : (c :: t).head? = some '{'
        · exact absurd (by rw [preambleAdjust_brace (c :: t) hh]; exact hh) hpre
        · cases hf : findCharIdx '{' (c :: t) with
          | some j =>
            exfalso
            have := findCharIdx_drop '{' (c :: t) j hf
            rw [← preambleAdjust_found (c :: t) j hh hf] at this
            exact hpre this
          | none =>
            rw [preambleAdjust_none (c :: t) hh hf]
            by_cases hws : (c :: t).all jsTrimWs = true
            · rw [if_pos hws]
              exact Or.inl rfl
            · rw [if_neg hws]
              exact Or.inr (Or.inl hf)

/-- C4 (counterexample): the buffer CAN retain a complete JSON object
after a drain cycle.  From the steady state, a chunk holding a malformed
candidate object followed by one complete valid report object takes the
parse-failure break (src/src/index.ts lines 383-393): the malformed span
is consumed and an error is emitted, but the complete trailing object
stays in the buffer — its scan finds a boundary at its last character and
it parses as a full report. -/
theorem claim_C4_cex :
    stdoutDataHandler none ⟨[], true⟩ parseFailStream =
      (⟨ser (Json.obj wFs), true⟩, [Event.error MErrType.jsonParseError]) ∧
    scanAux (ser (Json.obj wFs)) 0 false false 0 = ScanRes.found 16 ∧
    jsonParse (ser (Json.obj wFs)) = some (Json.obj wFs) :=
  ⟨rfl, rfl, rfl⟩

/-- C4 (amended): after a steady-state drain cycle that emits no error
event, the buffer invariant does hold: the buffer is empty, or contains
no opening brace at all (pending separator noise), or starts with an
opening brace and its brace scan is incomplete — a strict prefix of at
most one not-yet-complete object.  The invariant can only be broken by a
cycle that also emits an error event (parse-failure break or the
unbalanced branch). -/
theorem claim_C4_amended (comps : Option (List (List Char))) (b0 ch : List Char)
    (hnoerr : hasErrorEvent (stdoutDataHandler comps ⟨b0, true⟩ ch).2 = false) :
    (stdoutDataHandler comps ⟨b0, true⟩ ch).1.buffer = [] ∨
    findCharIdx '{' (stdoutDataHandler comps ⟨b0, true⟩ ch).1.buffer = none ∨
    ((stdoutDataHandler comps ⟨b0, true⟩ ch).1.buffer.head? = some '{' ∧
     ∃ b2 s2 e2,
       scanAux (stdoutDataHandler comps ⟨b0, true⟩ ch).1.buffer 0 false false 0 =
         ScanRes.incomplete b2 s2 e2) := by
  rw [handler_steady] at hnoerr ⊢
  exact drainLoop_inv comps ((b0 ++ ch).length + 1) (b0 ++ ch) (Nat.le_succ _) hnoerr

/-- C4 (witness): the amended invariant evaluated on a strict 9-character
prefix of a report object: no error is emitted and the buffer holds an
incomplete brace-headed prefix. -/
theorem claim_C4_witness :
    hasErrorEvent (stdoutDataHandler none ⟨[], true⟩ ((ser (Json.obj wFs)).take 9)).2 =
      false ∧
    ((stdoutDataHandler none ⟨[], true⟩ ((ser (Json.obj wFs)).take 9)).1.buffer = [] ∨
     findCharIdx '{'
       (stdoutDataHandler none ⟨[], true⟩ ((ser (Json.obj wFs)).take 9)).1.buffer = none ∨
     ((stdoutDataHandler none ⟨[], true⟩
         ((ser (Json.obj wFs)).take 9)).1.buffer.head? = some '{' ∧
      ∃ b2 s2 e2,
        scanAux (stdoutDataHandler none ⟨[], true⟩
          ((ser (Json.obj wFs)).take 9)).1.buffer 0 false false 0 =
          ScanRes.incomplete b2 s2 e2)) :=
  ⟨rfl, claim_C4_amended none [] ((ser (Json.obj wFs)).take 9) rfl⟩

/- Dispatch equations for the handler in the fresh (pre-noise-skip)
state, and for the three branches of the noise-skip step. -/
theorem handler_fresh (comps : Option (List (List Char))) (b0 ch : List Char) :
    stdoutDataHandler comps ⟨b0, false⟩ ch =
      (match skipInitial (b0 ++ ch) with
       | none => (⟨b0 ++ ch, false⟩, [])
       | some b1 =>
         (⟨(drainLoop comps (b1.length + 1) b1).1,
           (drainLoop comps (b1.length + 1) b1).2.1⟩,
          (drainLoop comps (b1.length + 1) b1).2.2)) := rfl

theorem handler_fresh_some (comps : Option (List (List Char))) (b0 ch b1 : List Char)
    (hs : skipInitial (b0 ++ ch) = some b1) :
    stdoutDataHandler comps ⟨b0, false⟩ ch = stdoutDataHandler comps ⟨b1, true⟩ [] := by
  rw [handler_fresh, hs, handler_steady, List.append_nil]

theorem handler_fresh_none (comps : Option (List (List Char))) (b0 ch : List Char)
    (hs : skipInitial (b0 ++ ch) = none) :
    stdoutDataHandler comps ⟨b0, false⟩ ch = (⟨b0 ++ ch, false⟩, []) := by
  rw [handler_fresh, hs]

theorem skipInitial_crlf (b : List Char) (n : Nat) (h : crlfIndex b = some n) :
    skipInitial b =
      some (if (b.take n).head? = some '{' then b else b.drop (n + 2)) := by
  unfold skipInitial
  rw [h]

theorem skipInitial_short (b : List Char) (h1 : crlfIndex b = none)
    (h2 : b.length ≤ 1024) : skipInitial b = none := by
  unfold skipInitial
  rw [h1]
  have hlt : ¬ 1024 < b.length := by omega
  simp [hlt]

theorem skipInitial_long (b : List Char) (h1 : crlfIndex b = none)
    (h2 : 1024 < b.length) (h3 : containsChar b '{' = false) :
    skipInitial b = some b := by
  unfold skipInitial
  rw [h1, h3]
  simp [h2]

/-- C5: the leading-noise skip.  With the noise not yet skipped, on the
combined buffer: (1) when a CRLF terminator is present at index n, the
session continues exactly as a steady-state session whose buffer kept the
whole data if the first line begins with an opening brace, and dropped
the first line and its terminator otherwise — noise is marked skipped
either way; (2) with no terminator and at most 1024 characters, the
handler waits, keeping everything buffered with the flag still unset and
emitting nothing; (3) with no terminator, more than 1024 characters and
no opening brace anywhere, the handler proceeds as a steady-state session
on the whole buffer (noise marked skipped, everything treated as
payload). -/
theorem claim_C5 (comps : Option (List (List Char))) (b0 ch : List Char) :
    (∀ n, crlfIndex (b0 ++ ch) = some n →
      stdoutDataHandler comps ⟨b0, false⟩ ch =
        stdoutDataHandler comps
          ⟨if ((b0 ++ ch).take n).head? = some '{' then b0 ++ ch
            else (b0 ++ ch).drop (n + 2), true⟩ []) ∧
    (crlfIndex (b0 ++ ch) = none → (b0 ++ ch).length ≤ 1024 →
      stdoutDataHandler comps ⟨b0, false⟩ ch = (⟨b0 ++ ch, false⟩, [])) ∧
    (crlfIndex (b0 ++ ch) = none → 1024 < (b0 ++ ch).length →
      containsChar (b0 ++ ch) '{' = false →
      stdoutDataHandler comps ⟨b0, false⟩ ch =
        stdoutDataHandler comps ⟨b0 ++ ch, true⟩ []) := by
  refine ⟨?_, ?_, ?_⟩
  · intro n h
    exact handler_fresh_some comps b0 ch _ (skipInitial_crlf (b0 ++ ch) n h)
  · intro h1 h2
    exact handler_fresh_none comps b0 ch (skipInitial_short (b0 ++ ch) h1 h2)
  · intro h1 h2 h3
    exact handler_fresh_some comps b0 ch _ (skipInitial_long (b0 ++ ch) h1 h2 h3)

/- A long brace-free, terminator-free buffer, described by induction
rather than by deep evaluation. -/
theorem crlfIndex_replicate (n : Nat) : crlfIndex (List.replicate n 'a') = none := by
  induction n with
  | zero => rfl
  | succ m ih =>
    rw [List.replicate_succ,
      show crlfIndex ('a' :: List.replicate m 'a') =
        (crlfIndex (List.replicate m 'a')).map (· + 1) from rfl, ih]
    rfl

theorem findCharIdx_replicate (n : Nat) :
    findCharIdx '{' (List.replicate n 'a') = none := by
  induction n with
  | zero => rfl
  | succ m ih =>
    rw [List.replicate_succ]
    show (if 'a' = '{' then some 0
      else (findCharIdx '{' (List.replicate m 'a')).map (· + 1)) = none
    rw [if_neg (by decide), ih]
    rfl

theorem containsChar_replicate (n : Nat) :
    containsChar (List.replicate n 'a') '{' = false := by
  unfold containsChar
  rw [findCharIdx_replicate]
  rfl

/-- C5 (witness): the three branches on concrete buffers — a banner line
before a brace, a short terminator-free buffer, and a 1025-character
brace-free buffer. -/
theorem claim_C5_witness :
    (crlfIndex (['x', '\r', '\n', '{'] : List Char) = some 1 ∧
     stdoutDataHandler none ⟨[], false⟩ ['x', '\r', '\n', '{'] =
       stdoutDataHandler none
         ⟨if ((['x', '\r', '\n', '{'] : List Char).take 1).head? = some '{'
            then ['x', '\r', '\n', '{']
            else (['x', '\r', '\n', '{'] : List Char).drop 3, true⟩ []) ∧
    (crlfIndex (['a'] : List Char) = none ∧
     stdoutDataHandler none ⟨[], false⟩ ['a'] = (⟨['a'], false⟩, [])) ∧
    (crlfIndex (List.replicate 1025 'a') = none ∧
     containsChar (List.replicate 1025 'a') '{' = false ∧
     stdoutDataHandler none ⟨[], false⟩ (List.replicate 1025 'a') =
       stdoutDataHandler none ⟨List.replicate 1025 'a', true⟩ []) :=
  ⟨⟨rfl, (claim_C5 none [] ['x', '\r', '\n', '{']).1 1 rfl⟩,
   ⟨rfl, (claim_C5 none [] ['a']).2.1 rfl (by decide)⟩,
   ⟨crlfIndex_replicate 1025, containsChar_replicate 1025,
    (claim_C5 none [] (List.replicate 1025 'a')).2.2 (crlfIndex_replicate 1025)
      (by rw [List.nil_append, List.length_replicate]; omega)
      (containsChar_replicate 1025)⟩⟩

/- Every data event emitted by the drain loop carries the uptime flag
computed by the explicit `addUptimeDataIfNeeded` condition. -/
theorem drainLoop_data_flag (comps : Option (List (List Char))) :
    ∀ (fuel : Nat) (b : List Char) (payload : Json) (wu : Bool),
      Event.data payload wu ∈ (drainLoop comps fuel b).2.2 → wu = needsUptime comps := by
  intro fuel
  induction fuel with
  | zero =>
    intro b payload wu h
    exact absurd h (List.not_mem_nil _)
  | succ f ih =>
    intro b payload wu h
    cases hbn : b with
    | nil =>
      subst hbn
      rw [drainLoop_nil] at h
      exact absurd h (List.not_mem_nil _)
    | cons c t =>
      subst hbn
      by_cases hpre : (preambleAdjust (c :: t)).head? = some '{'
      · obtain ⟨t2, ht2⟩ : ∃ t2, preambleAdjust (c :: t) = '{' :: t2 := by
          cases hp2 : preambleAdjust (c :: t) with
          | nil => rw [hp2] at hpre; simp at hpre
          | cons x xs =>
            rw [hp2] at hpre
            simp only [List.head?, Option.some.injEq] at hpre
            exact ⟨xs, by rw [hpre]⟩
        have hdl : drainLoop comps (f + 1) (c :: t) =
            drainLoop comps (f + 1) ('{' :: t2) := by
          rw [drainLoop_succ comps f (c :: t) (by simp), if_neg (by simpa using hpre), ht2,
            drainLoop_brace]
        rw [hdl] at h
        cases hscan : scanAux ('{' :: t2) 0 false false 0 with
        | incomplete b2 s2 e2 =>
          rw [drainLoop_brace_incomplete comps f t2 b2 s2 e2 hscan] at h
          exact absurd h (List.not_mem_nil _)
        | unbalanced =>
          rw [drainLoop_brace_unbalanced comps f t2 hscan] at h
          simp at h
        | found i =>
          cases hp : jsonParse (('{' :: t2).take (i + 1)) with
          | none =>
            rw [drainLoop_found_none comps f t2 i hscan hp] at h
            simp at h
          | some parsed =>
            by_cases hts : tsOk parsed = true
            · rw [drainLoop_found_some comps f t2 i parsed hscan hp, if_pos hts] at h
              rcases List.mem_cons.mp h with h1 | h2
              · simp only [Event.data.injEq] at h1
                exact h1.2
              · exact ih _ payload wu h2
            · rw [drainLoop_found_some comps f t2 i parsed hscan hp, if_neg hts] at h
              rcases List.mem_cons.mp h with h1 | h2
              · exact Event.noConfusion h1
              · exact ih _ payload wu h2
      · rw [drainLoop_succ comps f (c :: t) (by simp),
          if_pos (by simpa using hpre)] at h
        exact absurd h (List.not_mem_nil _)

theorem handler_data_flag (comps : Option (List (List Char))) (st : FramerState)
    (ch : List Char) (payload : Json) (wu : Bool)
    (h : Event.data payload wu ∈ (stdoutDataHandler comps st ch).2) :
    wu = needsUptime comps := by
  obtain ⟨b0, flag⟩ := st
  cases flag with
  | true =>
    rw [handler_steady] at h
    exact drainLoop_data_flag comps _ _ payload wu h
  | false =>
    rw [handler_fresh] at h
    cases hs : skipInitial (b0 ++ ch) with
    | none =>
      rw [hs] at h
      exact absurd h (List.not_mem_nil _)
    | some b1 =>
      rw [hs] at h
      exact drainLoop_data_flag comps _ _ payload wu h

/- Every resolved settlement of the one-shot machine carries the same
uptime flag. -/
/- Closed-form equations for the one-shot event step, one per event. -/
theorem onceStep_timeout (comps : Option (List (List Char))) (nowIso : List Char)
    (st : OnceState) :
    onceStep comps nowIso st OnceEvent.timeoutFire =
      (if st.timerActive then
        { st with
            processKilled := true
            timerActive := false
            kills := st.kills + 1
            settles := st.settles ++ [Settle.rejected MErrType.timeoutError] }
       else st) := rfl

theorem onceStep_procError (comps : Option (List (List Char))) (nowIso : List Char)
    (st : OnceState) :
    onceStep comps nowIso st OnceEvent.procError =
      (if st.processKilled then st
       else
        { st with
            timerActive := false
            settles := st.settles ++ [Settle.rejected MErrType.spawnError] }) := rfl

theorem onceStep_close (comps : Option (List (List Char))) (nowIso : List Char)
    (st : OnceState) (code : Int) :
    onceStep comps nowIso st (OnceEvent.closeEvt code) =
      (if st.processKilled then st
       else
        { st with
            timerActive := false
            settles := st.settles ++
              (if code ≠ 0 then [Settle.rejected MErrType.processError]
               else
                 match jsonParse st.output with
                 | some parsed =>
                   [Settle.resolved (mkFinalOnce comps nowIso parsed)
                     (needsUptime comps)]
                 | none => [Settle.rejected MErrType.jsonParseError]) }) := rfl

theorem onceStep_settles_flag (comps : Option (List (List Char))) (nowIso : List Char)
    (st : OnceState) (e : OnceEvent)
    (hst : ∀ p w, Settle.resolved p w ∈ st.settles → w = needsUptime comps) :
    ∀ p w, Settle.resolved p w ∈ (onceStep comps nowIso st e).settles →
      w = needsUptime comps := by
  intro p w h
  cases e with
  | timeoutFire =>
    rw [onceStep_timeout] at h
    by_cases ht : st.timerActive = true
    · rw [if_pos ht] at h
      rcases List.mem_append.mp h with h1 | h2
      · exact hst p w h1
      · simp at h2
    · rw [if_neg ht] at h
      exact hst p w h
  | stdoutData s => exact hst p w h
  | stderrData s => exact hst p w h
  | procError =>
    rw [onceStep_procError] at h
    by_cases hk : st.processKilled = true
    · rw [if_pos hk] at h
      exact hst p w h
    · rw [if_neg hk] at h
      rcases List.mem_append.mp h with h1 | h2
      · exact hst p w h1
      · simp at h2
  | closeEvt code =>
    rw [onceStep_close] at h
    by_cases hk : st.processKilled = true
    · rw [if_pos hk] at h
      exact hst p w h
    · rw [if_neg hk] at h
      rcases List.mem_append.mp h with h1 | h2
      · exact hst p w h1
      · by_cases hc : code ≠ 0
        · rw [if_pos hc] at h2
          simp at h2
        · rw [if_neg hc] at h2
          cases hp : jsonParse st.output with
          | some parsed =>
            rw [hp] at h2
            rcases List.mem_cons.mp h2 with h3 | h3
            · simp only [Settle.resolved.injEq] at h3
              exact h3.2
            · exact absurd h3 (List.not_mem_nil _)
          | none =>
            rw [hp] at h2
            simp at h2

theorem foldOnce_settles_flag (comps : Option (List (List Char))) (nowIso : List Char) :
    ∀ (events : List OnceEvent) (st : OnceState),
      (∀ p w, Settle.resolved p w ∈ st.settles → w = needsUptime comps) →
      ∀ p w, Settle.resolved p w ∈ (events.foldl (onceStep comps nowIso) st).settles →
        w = needsUptime comps := by
  intro events
  induction events with
  | nil => intro st hst p w h; exact hst p w h
  | cons e es ih =>
    intro st hst p w h
    exact ih (onceStep comps nowIso st e)
      (onceStep_settles_flag comps nowIso st e hst) p w h

/-- C6: the synthetic uptime tag and the uptime augmentation.
(1) The filtered component list passed to the CLI never contains the
uptime tag; (2) when filtering leaves nothing, the subprocess argument
list is exactly the one built with no component list ("--components" is
omitted entirely); (3) when something remains, exactly the two extra
arguments "--components" and the comma-joined filtered list are appended;
(4) the uptime-augmentation condition holds precisely when the requested
list is undefined, empty, or includes the uptime tag; (5) every report
emitted by the timed framer and (6) every report resolved by the one-shot
machine carries that flag. -/
theorem claim_C6 (mode : List Char) (i : Option Nat) (l : List (List Char))
    (comps : Option (List (List Char))) :
    uptimeTag ∉ l.filter (fun comp => !decide (comp = uptimeTag)) ∧
    (l.filter (fun comp => !decide (comp = uptimeTag)) = [] →
      buildArgs mode i (some l) = buildArgs mode i none) ∧
    (l.filter (fun comp => !decide (comp = uptimeTag)) ≠ [] →
      buildArgs mode i (some l) =
        buildArgs mode i none ++
          ["--components".toList,
           joinComma (l.filter (fun comp => !decide (comp = uptimeTag)))]) ∧
    (needsUptime comps = true ↔
      (comps = none ∨ comps = some [] ∨ ∃ l2, comps = some l2 ∧ uptimeTag ∈ l2)) ∧
    (∀ (st : FramerState) (ch : List Char) (payload : Json) (wu : Bool),
      Event.data payload wu ∈ (stdoutDataHandler comps st ch).2 →
      wu = needsUptime comps) ∧
    (∀ (nowIso : List Char) (events : List OnceEvent) (p : Json) (w : Bool),
      Settle.resolved p w ∈ (runOnce comps nowIso events).settles →
      w = needsUptime comps) := by
  refine ⟨?_, ?_, ?_, ?_, ?_, ?_⟩
  · simp [List.mem_filter]
  · intro hf
    simp [buildArgs, hf]
  · intro hf
    cases hl : l.filter (fun comp => !decide (comp = uptimeTag)) with
    | nil => exact absurd hl hf
    | cons x xs => simp [buildArgs, hl]
  · cases comps with
    | none => simp [needsUptime]
    | some l2 => simp [needsUptime]
  · intro st ch payload wu h
    exact handler_data_flag comps st ch payload wu h
  · intro nowIso events p w h
    refine foldOnce_settles_flag comps nowIso events onceInit ?_ p w h
    intro p2 w2 h2
    exact absurd h2 (List.not_mem_nil _)

/-- C6 (witness): with the requested list [uptime, CPU], the built
argument list appends "--components" with only "CPU", and the
uptime-augmentation flag for the list [uptime] is true. -/
theorem claim_C6_witness :
    buildArgs "once".toList none (some [uptimeTag, cpuKey]) =
      buildArgs "once".toList none none ++
        ["--components".toList,
         joinComma ([uptimeTag, cpuKey].filter (fun comp => !decide (comp = uptimeTag)))] ∧
    needsUptime (some [uptimeTag]) = true :=
  ⟨(claim_C6 "once".toList none [uptimeTag, cpuKey] (some [uptimeTag])).2.2.1 (by decide),
   ((claim_C6 "once".toList none [uptimeTag, cpuKey] (some [uptimeTag])).2.2.2.1).mpr
     (Or.inr (Or.inr ⟨[uptimeTag], rfl, List.mem_cons_self _ _⟩))⟩

/- After the timeout has fired, the run is dead: the kill flag stays
set, the timer stays cleared, and no later event changes the settlements
or the kill count. -/
theorem onceStep_dead (comps : Option (List (List Char))) (nowIso : List Char)
    (st : OnceState) (e : OnceEvent) (hk : st.processKilled = true)
    (ht : st.timerActive = false) :
    (onceStep comps nowIso st e).settles = st.settles ∧
    (onceStep comps nowIso st e).kills = st.kills ∧
    (onceStep comps nowIso st e).processKilled = true ∧
    (onceStep comps nowIso st e).timerActive = false := by
  cases e <;> simp [onceStep, hk, ht]

theorem foldOnce_dead (comps : Option (List (List Char))) (nowIso : List Char) :
    ∀ (events : List OnceEvent) (st : OnceState), st.processKilled = true →
      st.timerActive = false →
      (events.foldl (onceStep comps nowIso) st).settles = st.settles ∧
      (events.foldl (onceStep comps nowIso) st).kills = st.kills := by
  intro events
  induction events with
  | nil => intro st hk ht; exact ⟨rfl, rfl⟩
  | cons e es ih =>
    intro st hk ht
    obtain ⟨h1, h2, h3, h4⟩ := onceStep_dead comps nowIso st e hk ht
    obtain ⟨h5, h6⟩ := ih (onceStep comps nowIso st e) h3 h4
    exact ⟨by rw [List.foldl_cons, h5, h1], by rw [List.foldl_cons, h6, h2]⟩

/-- C7: when the timeout timer fires first (the subprocess has not closed
within the timeout), the one-shot run settles exactly once, with a
rejection of type timeout, and the subprocess is killed exactly once —
whatever exit, error, close or data events of the already-timed-out run
follow later, they are all ignored. -/
theorem claim_C7 (comps : Option (List (List Char))) (nowIso : List Char)
    (rest : List OnceEvent) :
    (runOnce comps nowIso (OnceEvent.timeoutFire :: rest)).settles =
      [Settle.rejected MErrType.timeoutError] ∧
    (runOnce comps nowIso (OnceEvent.timeoutFire :: rest)).kills = 1 := by
  have h2 := foldOnce_dead comps nowIso rest
    ⟨[], [], true, false, 1, [Settle.rejected MErrType.timeoutError]⟩ rfl rfl
  exact ⟨h2.1, h2.2⟩

/-- C8: calling `startTimed` while a continuous session is already active
takes the active-process guard: a plain error is emitted and no
subprocess is spawned (the outcome is not a spawn for any argument
list). -/
theorem claim_C8 (executablePath : List Char) (intervalMs : Nat)
    (comps : Option (List (List Char))) :
    startTimedSync true executablePath intervalMs comps =
      TimedSyncOutcome.emitPlainError := rfl

/-- C9: the downloader's rate-limit fallback.  When the fetch error
message contains "403" (case-insensitively), the fallback returns the
locally cached version directory that sorts first under descending
numeric-aware comparison, joined to the base directory; with no
directories (or a failed directory read) it fails with
no-local-versions; on any other fetch failure no fallback is attempted;
and the numeric-aware order ranks v1.10.0 above v1.9.0 above v1.2.0. -/
theorem claim_C9 (errMsg : List Char) (dirs : List (List Char))
    (baseDir top : List Char) :
    (containsSub "403".toList (lowerStr errMsg) = true →
      (sortVersionsDesc dirs).head? = some top →
      fetchFailureFallback errMsg (some dirs) baseDir =
        FetchFailureOutcome.fallback (pathJoin baseDir top)) ∧
    (containsSub "403".toList (lowerStr errMsg) = true →
      (sortVersionsDesc dirs).head? = none →
      fetchFailureFallback errMsg (some dirs) baseDir =
        FetchFailureOutcome.failedNoLocalVersions) ∧
    (containsSub "403".toList (lowerStr errMsg) = true →
      fetchFailureFallback errMsg none baseDir =
        FetchFailureOutcome.failedNoLocalVersions) ∧
    (containsSub "403".toList (lowerStr errMsg) = false →
      ∀ dd, fetchFailureFallback errMsg dd baseDir =
        FetchFailureOutcome.failedFetch) ∧
    sortVersionsDesc ["v1.2.0".toList, "v1.10.0".toList, "v1.9.0".toList] =
      ["v1.10.0".toList, "v1.9.0".toList, "v1.2.0".toList] := by
  refine ⟨?_, ?_, ?_, ?_, by decide⟩
  · intro h1 h2
    have h1' : containsSub ['4', '0', '3'] (lowerStr errMsg) = true := h1
    simp [fetchFailureFallback, h1', h2]
  · intro h1 h2
    have h1' : containsSub ['4', '0', '3'] (lowerStr errMsg) = true := h1
    simp [fetchFailureFallback, h1', h2]
  · intro h1
    have h1' : containsSub ['4', '0', '3'] (lowerStr errMsg) = true := h1
    simp [fetchFailureFallback, h1']
  · intro h1 dd
    have h1' : containsSub ['4', '0', '3'] (lowerStr errMsg) = false := h1
    simp [fetchFailureFallback, h1']

/-- C9 (witness): a 403 message with three cached versions falls back to
v1.10.0; a non-403 message attempts no fallback. -/
theorem claim_C9_witness :
    containsSub "403".toList
      (lowerStr "Failed to fetch JSON: 403 Forbidden".toList) = true ∧
    (sortVersionsDesc ["v1.2.0".toList, "v1.10.0".toList, "v1.9.0".toList]).head? =
      some "v1.10.0".toList ∧
    fetchFailureFallback "Failed to fetch JSON: 403 Forbidden".toList
      (some ["v1.2.0".toList, "v1.10.0".toList, "v1.9.0".toList]) "base".toList =
      FetchFailureOutcome.fallback (pathJoin "base".toList "v1.10.0".toList) ∧
    fetchFailureFallback "connection reset".toList
      (some ["v1.2.0".toList]) "base".toList = FetchFailureOutcome.failedFetch :=
  ⟨by decide, by decide,
   (claim_C9 "Failed to fetch JSON: 403 Forbidden".toList
     ["v1.2.0".toList, "v1.10.0".toList, "v1.9.0".toList] "base".toList
     "v1.10.0".toList).1 (by decide) (by decide),
   (claim_C9 "connection reset".toList ["v1.2.0".toList] "base".toList
     "x".toList).2.2.2.1 (by decide) (some ["v1.2.0".toList])⟩

/-- C10: with no executable path set (checkRequirements never succeeded),
the synchronous prelude of `getDataOnce` rejects immediately with a
spawn-typed MonitorError, and the one of `startTimed` emits a spawn-typed
MonitorError event; neither outcome is a spawn. -/
theorem claim_C10 (intervalMs : Nat) (comps : Option (List (List Char))) :
    getDataOnceSync [] comps = OnceSyncOutcome.rejectImmediate MErrType.spawnError ∧
    startTimedSync false [] intervalMs comps =
      TimedSyncOutcome.emitMonitorError MErrType.spawnError :=
  ⟨rfl, rfl⟩

end LynxHW
